import Mathlib

/-!
# depot: registry of tracked repositories and its sync engine

A shallow embedding of `main.go`.  The program keeps a list of `Repo` records in a
JSON document and shells out to `git` to bring local clones up to date.

What lives outside the program is taken as a parameter:

* `Json`      : the two `encoding/json` calls (`MarshalIndent`, `Unmarshal`), with
                `goJson` as the model of what the library does to strings;
* `PathLib`   : the two `path/filepath` calls (`Join`, `Dir`);
* `Faults`    : which of the `os` calls of one command invocation fail;
* `Oracle`    : the results of `os.Stat`, `os.MkdirAll` and of the `git` sub-processes
                during `update`, each as a function of everything that happened before.

The persistent state is the content of the file at `configPath` (`none`: no such file).
Go strings are byte sequences (`GoString`), valid UTF-8 or not.  Slices are modelled by
`List`, so a nil and an empty slice are the same.
-/

namespace Depot

/-! ## Go strings and the standard library

A Go string is a sequence of bytes, not necessarily valid UTF-8: the command-line
arguments reach the program as the bytes the shell passed.  The functions of this section
model the parts of the Go standard library the program relies on (`unicode/utf8`,
`encoding/json`); the repository calls them and does not contain them. -/

/-- A Go `string`: any sequence of bytes. -/
abbrev GoString := List UInt8

/-- A string literal of the source: the UTF-8 bytes of its text. -/
def go (s : String) : GoString := s.data.flatMap String.utf8EncodeChar

/-- A UTF-8 continuation byte, 0x80 to 0xBF. -/
def contByte (b : UInt8) : Bool := 0x80 ≤ b && b ≤ 0xBF

/-- The length of the UTF-8 sequence a first byte announces (0: cannot start one). -/
def seqSize (b0 : UInt8) : Nat :=
  if b0 < 0x80 then 1 else if b0 < 0xC2 then 0 else if b0 < 0xE0 then 2
  else if b0 < 0xF0 then 3 else if b0 < 0xF5 then 4 else 0

/-- The second byte of a sequence is in the range its first byte accepts (no overlong
form, no surrogate, nothing above U+10FFFF). -/
def secondOk (b0 b1 : UInt8) : Bool :=
  if b0 = 0xE0 then 0xA0 ≤ b1 && b1 ≤ 0xBF
  else if b0 = 0xED then 0x80 ≤ b1 && b1 ≤ 0x9F
  else if b0 = 0xF0 then 0x90 ≤ b1 && b1 ≤ 0xBF
  else if b0 = 0xF4 then 0x80 ≤ b1 && b1 ≤ 0x8F
  else contByte b1

/-- The width `utf8.DecodeRune` reports for the rune at the head of the string when that
rune is well-formed, and 0 when it reports `RuneError` (invalid or truncated). -/
def runeLen : GoString → Nat
  | [] => 0
  | b0 :: rest =>
    if seqSize b0 = 1 then 1
    else
      match rest with
      | [] => 0
      | b1 :: r1 =>
        if seqSize b0 = 2 then (if secondOk b0 b1 then 2 else 0)
        else
          match r1 with
          | [] => 0
          | b2 :: r2 =>
            if seqSize b0 = 3 then (if secondOk b0 b1 && contByte b2 then 3 else 0)
            else
              match r2 with
              | [] => 0
              | b3 :: _ =>
                if seqSize b0 = 4 && secondOk b0 b1 && contByte b2 && contByte b3 then 4
                else 0

/-- The UTF-8 bytes of U+FFFD, the replacement character. -/
def replacement : GoString := [0xEF, 0xBF, 0xBD]

/-- What a string becomes when `encoding/json` writes it and reads it back, with `k`
bytes of the current rune still to copy: well-formed runes are kept, and every byte that
does not start one is replaced by U+FFFD. -/
def jsonFrom : Nat → GoString → GoString
  | _, [] => []
  | k + 1, b :: rest => b :: jsonFrom k rest
  | 0, b :: rest =>
    if runeLen (b :: rest) = 0 then replacement ++ jsonFrom 0 rest
    else b :: jsonFrom (runeLen (b :: rest) - 1) rest

/-- The string `encoding/json` gives back for a string it was given. -/
def jsonString (s : GoString) : GoString := jsonFrom 0 s

/-- The scan of `utf8.Valid`, with `k` bytes of the current rune still to pass. -/
def validFrom : Nat → GoString → Bool
  | 0, [] => true
  | _ + 1, [] => false
  | k + 1, _ :: rest => validFrom k rest
  | 0, b :: rest => runeLen (b :: rest) != 0 && validFrom (runeLen (b :: rest) - 1) rest

/-- The function `utf8.Valid`: the string is valid UTF-8. -/
def validUTF8 (s : GoString) : Bool := validFrom 0 s

/-! ## Data model (`main.go` 14-28) -/

/-- One tracked repository (`type Repo struct`). -/
structure Repo where
  name : GoString
  url : GoString
  branch : GoString
  path : GoString
deriving DecidableEq, Repr

/-- The registry document (`type Config struct`). -/
structure Config where
  repos : List Repo
deriving DecidableEq, Repr

/-- The package-level variables `configPath` and `vendorDir`. -/
structure Globals where
  configPath : GoString
  vendorDir : GoString
deriving DecidableEq, Repr

/-- The `encoding/json` calls of the program, over an arbitrary type of file contents. -/
structure Json (Bytes : Type) where
  marshalIndent : Config → Except GoString Bytes
  unmarshal : Bytes → Except GoString Config

/-- The `path/filepath` calls of the program. -/
structure PathLib where
  join : GoString → GoString → GoString
  dir : GoString → GoString

/-- A Go `error` value as the program can tell them apart: `os.IsNotExist` or not. -/
inductive GoErr where
  | notExist
  | other (msg : GoString)
deriving DecidableEq, Repr

/-- The text `%v` prints for an error. -/
def GoErr.msg : GoErr → GoString
  | .notExist => go "no such file or directory"
  | .other m => m

/-- The predicate `os.IsNotExist`. -/
def GoErr.isNotExist : GoErr → Bool
  | .notExist => true
  | .other _ => false

/-- Failures of the `os` calls during one command invocation.  `readErr`: `os.ReadFile`
fails with an error that is not "does not exist".  `mkdirErr`: `os.MkdirAll` fails.
`writeErr`: `os.WriteFile` fails, leaving the given content at the path. -/
structure Faults (Bytes : Type) where
  readErr : Option GoString
  mkdirErr : Option GoString
  writeErr : Option (GoString × Option Bytes)

/-- An invocation in which no `os` call fails. -/
def Faults.none {Bytes : Type} : Faults Bytes := ⟨Option.none, Option.none, Option.none⟩

/-- A mutation of the file system attempted by a command. -/
inductive FsOp (Bytes : Type) where
  | mkdirAll (dir : GoString)
  | writeFile (path : GoString) (data : Bytes)
deriving DecidableEq, Repr

/-! ## Config store (`main.go` 36-63) -/

/-- The call `os.ReadFile(configPath)`. -/
def readFile {Bytes : Type} (f : Faults Bytes) (file : Option Bytes) : Except GoErr Bytes :=
  match f.readErr with
  | some e => .error (.other e)
  | Option.none =>
    match file with
    | Option.none => .error .notExist
    | some data => .ok data

/-- The function `loadConfig`. -/
def loadConfig {Bytes : Type} (j : Json Bytes) (f : Faults Bytes) (file : Option Bytes) :
    Except GoErr Config :=
  match readFile f file with
  | .error err =>
    if err.isNotExist then .ok ⟨[]⟩ else .error err
  | .ok data =>
    match j.unmarshal data with
    | .error e => .error (.other e)
    | .ok config => .ok config

/-- What `saveConfig` leaves behind: its error (if any), the content of the file at
`configPath`, and the file-system mutations it attempted, in order. -/
structure Saved (Bytes : Type) where
  err : Option GoErr
  file : Option Bytes
  ops : List (FsOp Bytes)

/-- The function `saveConfig`. -/
def saveConfig {Bytes : Type} (g : Globals) (j : Json Bytes) (f : Faults Bytes)
    (config : Config) (file : Option Bytes) : Saved Bytes :=
  match f.mkdirErr with
  | some e => ⟨some (.other e), file, [.mkdirAll g.vendorDir]⟩
  | Option.none =>
    match j.marshalIndent config with
    | .error e => ⟨some (.other e), file, [.mkdirAll g.vendorDir]⟩
    | .ok data =>
      match f.writeErr with
      | some (e, left) =>
        ⟨some (.other e), left, [.mkdirAll g.vendorDir, .writeFile g.configPath data]⟩
      | Option.none =>
        ⟨Option.none, some data, [.mkdirAll g.vendorDir, .writeFile g.configPath data]⟩

/-! ## Registry operations (`main.go` 65-132) -/

/-- How a command ends: `nil`, or one of the `cli.Exit(..., 1)` returns. -/
inductive Exit where
  | ok
  | usage (text : GoString)
  | loadError (err : GoErr)
  | duplicate (name : GoString)
  | notFound (name : GoString)
  | saveError (err : GoErr)
deriving DecidableEq, Repr

/-- The process exit code. -/
def Exit.code : Exit → Nat
  | .ok => 0
  | _ => 1

/-- The message given to `cli.Exit`. -/
def Exit.message : Exit → GoString
  | .ok => go ""
  | .usage text => text
  | .loadError err => go "Error loading config: " ++ err.msg
  | .duplicate name => go "Repo '" ++ name ++ go "' already exists"
  | .notFound name => go "Repo '" ++ name ++ go "' not found"
  | .saveError err => go "Error saving config: " ++ err.msg

/-- The observable result of `add` or `remove`: how it ended, the content of the file at
`configPath` afterwards, the attempted file-system mutations, and the lines printed. -/
structure CmdResult (Bytes : Type) where
  exit : Exit
  file : Option Bytes
  ops : List (FsOp Bytes)
  out : List GoString

/-- The call `c.Args().Get(i)`: the empty string when out of range. -/
def argsGet (args : List GoString) (i : Nat) : GoString := args.getD i (go "")

/-- The call `c.String(flag)` for a flag declared with default `dflt`. -/
def cliString (flag : Option GoString) (dflt : GoString) : GoString := flag.getD dflt

/-- The duplicate check of `cmdAdd` (lines 88-92): true when the loop returns. -/
def nameExists (name : GoString) : List Repo → Bool
  | [] => false
  | repo :: rest => if repo.name = name then true else nameExists name rest

/-- The function `cmdAdd`; `branchFlag` and `pathFlag` are the `--branch` and `--path`
flags as given on the command line. -/
def cmdAdd {Bytes : Type} (g : Globals) (lib : PathLib) (j : Json Bytes) (f : Faults Bytes)
    (args : List GoString) (branchFlag pathFlag : Option GoString) (file : Option Bytes) :
    CmdResult Bytes :=
  if args.length < 2 then
    ⟨.usage (go "Usage: depo add <name> <url> [--branch main] [--path ~/.vendor/<name>]"),
      file, [], []⟩
  else
    let name := argsGet args 0
    let url := argsGet args 1
    let branch := cliString branchFlag (go "main")
    let path := cliString pathFlag (go "")
    let branch := if branch = go "" then go "main" else branch
    let path := if path = go "" then lib.join g.vendorDir name else path
    match loadConfig j f file with
    | .error err => ⟨.loadError err, file, [], []⟩
    | .ok config =>
      if nameExists name config.repos then
        ⟨.duplicate name, file, [], []⟩
      else
        let config : Config := ⟨config.repos ++ [⟨name, url, branch, path⟩]⟩
        let s := saveConfig g j f config file
        match s.err with
        | some err => ⟨.saveError err, s.file, s.ops, []⟩
        | Option.none =>
          ⟨.ok, s.file, s.ops, [go "✓ Added repo '" ++ name ++ go "' to config\n"]⟩

/-- The search loop of `cmdRemove` (lines 120-129) over the not yet visited records
`rest`, the next index being `i`: the spliced list
`append(config.Repos[:i], config.Repos[i+1:]...)` at the first match, `none` when the
loop runs to its end. -/
def removeLoop (name : GoString) (repos : List Repo) : List Repo → Nat → Option (List Repo)
  | [], _ => Option.none
  | repo :: rest, i =>
    if repo.name = name then some (repos.take i ++ repos.drop (i + 1))
    else removeLoop name repos rest (i + 1)

/-- The function `cmdRemove`. -/
def cmdRemove {Bytes : Type} (g : Globals) (j : Json Bytes) (f : Faults Bytes)
    (args : List GoString) (file : Option Bytes) : CmdResult Bytes :=
  if args.length < 1 then
    ⟨.usage (go "Usage: depo remove <name>"), file, [], []⟩
  else
    let name := argsGet args 0
    match loadConfig j f file with
    | .error err => ⟨.loadError err, file, [], []⟩
    | .ok config =>
      match removeLoop name config.repos config.repos 0 with
      | some repos =>
        let s := saveConfig g j f ⟨repos⟩ file
        match s.err with
        | some err => ⟨.saveError err, s.file, s.ops, []⟩
        | Option.none =>
          ⟨.ok, s.file, s.ops, [go "✓ Removed repo '" ++ name ++ go "' from config\n"]⟩
      | Option.none => ⟨.notFound name, file, [], []⟩

/-! ## Sync engine (`main.go` 134-200, 224-230) -/

/-- The lines `update` prints.  `processing` carries the record whose iteration starts;
only its name is printed. -/
inductive Msg where
  | noRepos
  | processing (repo : Repo)
  | updating
  | errFetch (err : GoString)
  | errCheckout (err : GoString)
  | errPull (err : GoString)
  | cloning
  | errMkdir (err : GoString)
  | errClone (err : GoString)
  | done (name : GoString)
deriving DecidableEq, Repr

/-- The printed text of a line. -/
def Msg.text : Msg → GoString
  | .noRepos => go "No repos configured\n"
  | .processing repo => go "Processing " ++ repo.name ++ go "...\n"
  | .updating => go "  Updating existing repo...\n"
  | .errFetch err => go "  Error fetching: " ++ err ++ go "\n"
  | .errCheckout err => go "  Error checking out branch: " ++ err ++ go "\n"
  | .errPull err => go "  Error pulling: " ++ err ++ go "\n"
  | .cloning => go "  Cloning repo...\n"
  | .errMkdir err => go "  Error creating directory: " ++ err ++ go "\n"
  | .errClone err => go "  Error cloning: " ++ err ++ go "\n"
  | .done name => go "  ✓ " ++ name ++ go " done\n\n"

/-- One observable step of `update`.  `git dir args err` is a finished `git` sub-process
with working directory `dir` (`none`: inherited) and result `err` (`none`: success). -/
inductive Event where
  | print (m : Msg)
  | stat (path : GoString) (ok : Bool)
  | mkdirAll (dir : GoString) (err : Option GoString)
  | git (dir : Option GoString) (args : List GoString) (err : Option GoString)
deriving DecidableEq, Repr

/-- The world `update` runs in: the result of each `os.Stat` (true: `err == nil`),
`os.MkdirAll` and `git` sub-process, given all the steps taken so far. -/
structure Oracle where
  stat : List Event → GoString → Bool
  mkdirAll : List Event → GoString → Option GoString
  git : List Event → Option GoString → List GoString → Option GoString

/-- The function `runGit`: its error and the extended trace. -/
def runGit (o : Oracle) (tr : List Event) (dir : GoString) (args : List GoString) :
    Option GoString × List Event :=
  let err := o.git tr (some dir) args
  (err, tr ++ [.git (some dir) args err])

/-- The arguments of the clone sub-process (line 185). -/
def cloneArgs (repo : Repo) : List GoString :=
  [go "clone", go "--depth", go "1", go "--branch", repo.branch, repo.url, repo.path]

/-- Lines 173-176 of `cmdUpdate`: the pull.  `false`: the iteration ends by `continue`. -/
def syncPull (o : Oracle) (repo : Repo) (tr : List Event) : List Event × Bool :=
  match runGit o tr repo.path [go "pull", go "origin", repo.branch] with
  | (some err, tr) => (tr ++ [.print (.errPull err)], false)
  | (Option.none, tr) => (tr, true)

/-- Lines 160-176 of `cmdUpdate`: refresh of an existing clone. -/
def syncExisting (o : Oracle) (repo : Repo) (tr : List Event) : List Event × Bool :=
  let tr := tr ++ [.print .updating]
  match runGit o tr repo.path [go "fetch", go "origin"] with
  | (some err, tr) => (tr ++ [.print (.errFetch err)], false)
  | (Option.none, tr) =>
    match runGit o tr repo.path [go "checkout", repo.branch] with
    | (some _, tr) =>
      match runGit o tr repo.path
          [go "checkout", go "-b", repo.branch, go "origin/" ++ repo.branch] with
      | (some err, tr) => (tr ++ [.print (.errCheckout err)], false)
      | (Option.none, tr) => syncPull o repo tr
    | (Option.none, tr) => syncPull o repo tr

/-- Lines 178-189 of `cmdUpdate`: clone of a repository that is not there yet. -/
def syncClone (lib : PathLib) (o : Oracle) (repo : Repo) (tr : List Event) :
    List Event × Bool :=
  let tr := tr ++ [.print .cloning]
  let parent := lib.dir repo.path
  let mk := o.mkdirAll tr parent
  let tr := tr ++ [.mkdirAll parent mk]
  match mk with
  | some err => (tr ++ [.print (.errMkdir err)], false)
  | Option.none =>
    let cl := o.git tr Option.none (cloneArgs repo)
    let tr := tr ++ [.git Option.none (cloneArgs repo) cl]
    match cl with
    | some err => (tr ++ [.print (.errClone err)], false)
    | Option.none => (tr, true)

/-- Lines 155-190 of `cmdUpdate`: the body of one loop iteration that passed the name
filter, up to the end of the if/else.  `false`: the iteration ended by `continue`. -/
def syncRepo (lib : PathLib) (o : Oracle) (repo : Repo) (tr : List Event) :
    List Event × Bool :=
  let tr := tr ++ [.print (.processing repo)]
  let gitDir := lib.join repo.path (go ".git")
  let st := o.stat tr gitDir
  let tr := tr ++ [.stat gitDir st]
  if st then syncExisting o repo tr else syncClone lib o repo tr

/-- The loop of `cmdUpdate` (lines 150-197) over the remaining records. -/
def updateLoop (lib : PathLib) (o : Oracle) (name : GoString) :
    List Repo → List Event → List Event
  | [], tr => tr
  | repo :: rest, tr =>
    if name ≠ go "" ∧ repo.name ≠ name then updateLoop lib o name rest tr
    else
      match syncRepo lib o repo tr with
      | (tr, false) => updateLoop lib o name rest tr
      | (tr, true) =>
        let tr := tr ++ [.print (.done repo.name)]
        if name ≠ go "" then tr else updateLoop lib o name rest tr

/-- The observable result of `update`. -/
structure UpdateResult where
  exit : Exit
  trace : List Event
deriving DecidableEq, Repr

/-- The function `cmdUpdate`. -/
def cmdUpdate {Bytes : Type} (lib : PathLib) (j : Json Bytes) (f : Faults Bytes)
    (o : Oracle) (args : List GoString) (file : Option Bytes) : UpdateResult :=
  match loadConfig j f file with
  | .error err => ⟨.loadError err, []⟩
  | .ok config =>
    if config.repos.length = 0 then ⟨.ok, [.print .noRepos]⟩
    else
      let name := if args.length > 0 then argsGet args 0 else go ""
      ⟨.ok, updateLoop lib o name config.repos []⟩

/-! ## Vocabulary of the properties -/

/-- The names of the records of a registry, in order. -/
def Config.names (c : Config) : List GoString := c.repos.map Repo.name

/-- The registry a fault-free `loadConfig` reads from the file: the persisted registry. -/
def persisted {Bytes : Type} (j : Json Bytes) (file : Option Bytes) : Except GoErr Config :=
  loadConfig j Faults.none file

/-- The JSON library round-trips the registry `c`: it can be marshalled, and
unmarshalling the result gives `c` back. -/
def Json.RoundTrips {Bytes : Type} (j : Json Bytes) (c : Config) : Prop :=
  ∃ data, j.marshalIndent c = .ok data ∧ j.unmarshal data = .ok c

/-- The record `add` builds from its arguments (lines 70-80 and 94-99). -/
def newRepo (g : Globals) (lib : PathLib) (name url : GoString)
    (branchFlag pathFlag : Option GoString) : Repo :=
  ⟨name, url,
    (match branchFlag with
      | some b => if b = go "" then go "main" else b
      | Option.none => go "main"),
    (match pathFlag with
      | some p => if p = go "" then lib.join g.vendorDir name else p
      | Option.none => lib.join g.vendorDir name)⟩

/-- The registry with the first record named `name` deleted (the words of the spec). -/
def removeFirst (name : GoString) : List Repo → List Repo
  | [] => []
  | repo :: rest => if repo.name = name then rest else repo :: removeFirst name rest

/-- One `add` invocation whose name argument is valid UTF-8, or one `remove` invocation,
with any other arguments and flags and under any faults except a failing `os.WriteFile`
(which may leave anything at the path), takes the first file content to the second. -/
inductive Step {Bytes : Type} (g : Globals) (lib : PathLib) (j : Json Bytes) :
    Option Bytes → Option Bytes → Prop where
  | add (f : Faults Bytes) (args : List GoString) (branchFlag pathFlag : Option GoString)
      (file : Option Bytes) (hw : f.writeErr = Option.none)
      (hv : validUTF8 (argsGet args 0) = true) :
      Step g lib j file (cmdAdd g lib j f args branchFlag pathFlag file).file
  | remove (f : Faults Bytes) (args : List GoString) (file : Option Bytes)
      (hw : f.writeErr = Option.none) :
      Step g lib j file (cmdRemove g j f args file).file

/-- The file contents reached from `start` by a sequence of `add`/`remove` invocations. -/
inductive Reachable {Bytes : Type} (g : Globals) (lib : PathLib) (j : Json Bytes)
    (start : Option Bytes) : Option Bytes → Prop where
  | refl : Reachable g lib j start start
  | step (mid next : Option Bytes) (h : Reachable g lib j start mid)
      (s : Step g lib j mid next) : Reachable g lib j start next

/-- The persisted registry can be read and its record names are pairwise distinct. -/
def UniqueNames {Bytes : Type} (j : Json Bytes) (file : Option Bytes) : Prop :=
  ∃ cfg, persisted j file = .ok cfg ∧ cfg.names.Nodup

/-- The records whose loop iteration started, in the order of the trace. -/
def processedOf : List Event → List Repo
  | [] => []
  | .print (.processing repo) :: rest => repo :: processedOf rest
  | _ :: rest => processedOf rest

/-- The `git` sub-processes of a trace, in order: working directory and arguments. -/
def commandsOf : List Event → List (Option GoString × List GoString)
  | [] => []
  | .git dir args _ :: rest => (dir, args) :: commandsOf rest
  | _ :: rest => commandsOf rest

/-- The recorded result of an event is the answer of the world after the steps `hist`. -/
def Event.agrees (o : Oracle) (hist : List Event) : Event → Bool
  | .print _ => true
  | .stat path ok => o.stat hist path == ok
  | .mkdirAll dir err => o.mkdirAll hist dir == err
  | .git dir args err => o.git hist dir args == err

/-- Every event of `evs`, run after `hist`, records the answer of the world. -/
def agrees (o : Oracle) : List Event → List Event → Bool
  | _, [] => true
  | hist, e :: evs => e.agrees o hist && agrees o (hist ++ [e]) evs

/-- The complete runs of the per-record state machine as the specification describes it
(Probe, then Clone, or Fetch, Checkout-or-Create, Pull), each with the events of the run
and whether the record reaches Done. -/
inductive SyncRun (lib : PathLib) (repo : Repo) : List Event → Bool → Prop where
  | fetchFailed (e : GoString) : SyncRun lib repo
      [.print (.processing repo), .stat (lib.join repo.path (go ".git")) true,
        .print .updating,
        .git (some repo.path) [go "fetch", go "origin"] (some e),
        .print (.errFetch e)] false
  | checkoutPull : SyncRun lib repo
      [.print (.processing repo), .stat (lib.join repo.path (go ".git")) true,
        .print .updating,
        .git (some repo.path) [go "fetch", go "origin"] Option.none,
        .git (some repo.path) [go "checkout", repo.branch] Option.none,
        .git (some repo.path) [go "pull", go "origin", repo.branch] Option.none] true
  | checkoutPullFailed (e : GoString) : SyncRun lib repo
      [.print (.processing repo), .stat (lib.join repo.path (go ".git")) true,
        .print .updating,
        .git (some repo.path) [go "fetch", go "origin"] Option.none,
        .git (some repo.path) [go "checkout", repo.branch] Option.none,
        .git (some repo.path) [go "pull", go "origin", repo.branch] (some e),
        .print (.errPull e)] false
  | createFailed (c e : GoString) : SyncRun lib repo
      [.print (.processing repo), .stat (lib.join repo.path (go ".git")) true,
        .print .updating,
        .git (some repo.path) [go "fetch", go "origin"] Option.none,
        .git (some repo.path) [go "checkout", repo.branch] (some c),
        .git (some repo.path) [go "checkout", go "-b", repo.branch, go "origin/" ++ repo.branch]
          (some e),
        .print (.errCheckout e)] false
  | createPull (c : GoString) : SyncRun lib repo
      [.print (.processing repo), .stat (lib.join repo.path (go ".git")) true,
        .print .updating,
        .git (some repo.path) [go "fetch", go "origin"] Option.none,
        .git (some repo.path) [go "checkout", repo.branch] (some c),
        .git (some repo.path) [go "checkout", go "-b", repo.branch, go "origin/" ++ repo.branch]
          Option.none,
        .git (some repo.path) [go "pull", go "origin", repo.branch] Option.none] true
  | createPullFailed (c e : GoString) : SyncRun lib repo
      [.print (.processing repo), .stat (lib.join repo.path (go ".git")) true,
        .print .updating,
        .git (some repo.path) [go "fetch", go "origin"] Option.none,
        .git (some repo.path) [go "checkout", repo.branch] (some c),
        .git (some repo.path) [go "checkout", go "-b", repo.branch, go "origin/" ++ repo.branch]
          Option.none,
        .git (some repo.path) [go "pull", go "origin", repo.branch] (some e),
        .print (.errPull e)] false
  | mkdirFailed (e : GoString) : SyncRun lib repo
      [.print (.processing repo), .stat (lib.join repo.path (go ".git")) false,
        .print .cloning,
        .mkdirAll (lib.dir repo.path) (some e),
        .print (.errMkdir e)] false
  | cloneFailed (e : GoString) : SyncRun lib repo
      [.print (.processing repo), .stat (lib.join repo.path (go ".git")) false,
        .print .cloning,
        .mkdirAll (lib.dir repo.path) Option.none,
        .git Option.none
          [go "clone", go "--depth", go "1", go "--branch", repo.branch, repo.url, repo.path]
          (some e),
        .print (.errClone e)] false
  | cloned : SyncRun lib repo
      [.print (.processing repo), .stat (lib.join repo.path (go ".git")) false,
        .print .cloning,
        .mkdirAll (lib.dir repo.path) Option.none,
        .git Option.none
          [go "clone", go "--depth", go "1", go "--branch", repo.branch, repo.url, repo.path]
          Option.none] true

/-- What one processed record adds to the trace: its run, then the success line when it
reached Done. -/
def runEvents (repo : Repo) (run : List Event × Bool) : List Event :=
  run.1 ++ (if run.2 then [.print (.done repo.name)] else [])

/-- The trace made of one run per record, in the order of the records. -/
def tracesOf : List Repo → List (List Event × Bool) → List Event
  | repo :: repos, run :: runs => runEvents repo run ++ tracesOf repos runs
  | _, _ => []

/-- A world for examples: nothing is cloned yet, directories cannot be created, and every
`git` sub-process fails. -/
def hostileWorld : Oracle :=
  ⟨fun _ _ => false, fun _ _ => some (go "permission denied"),
    fun _ _ _ => some (go "exit status 1")⟩

/-- A world for examples: every clone is there, and `git` fails exactly when fetching in
the path of record "a". -/
def fetchFailsForA : Oracle :=
  ⟨fun _ _ => true, fun _ _ => Option.none,
    fun _ dir args =>
      if dir = some (go "/p/a") ∧ args = [go "fetch", go "origin"] then
        some (go "exit status 128")
      else Option.none⟩

/-- A record as `encoding/json` gives it back: each of its strings coerced. -/
def Repo.viaJson (r : Repo) : Repo :=
  ⟨jsonString r.name, jsonString r.url, jsonString r.branch, jsonString r.path⟩

/-- A registry as `encoding/json` gives it back. -/
def Config.viaJson (c : Config) : Config := ⟨c.repos.map Repo.viaJson⟩

/-- All four strings of the record are valid UTF-8. -/
def Repo.validUTF8 (r : Repo) : Bool :=
  Depot.validUTF8 r.name && Depot.validUTF8 r.url && Depot.validUTF8 r.branch &&
    Depot.validUTF8 r.path

/-- All strings of the registry are valid UTF-8. -/
def Config.validUTF8 (c : Config) : Bool := c.repos.all Repo.validUTF8

/-- The content of the configuration file as `encoding/json` sees it: not a JSON document
of the expected shape, or a document holding the given records. -/
inductive Doc where
  | malformed
  | registry (c : Config)
deriving DecidableEq, Repr

/-- Model of `encoding/json` on registries.  `MarshalIndent` never fails on a `Config` and
writes each string with every byte that does not belong to a well-formed UTF-8 sequence
replaced by U+FFFD; `Unmarshal` fails on a malformed document and otherwise returns the
records, coercing strings in the same way.  Valid UTF-8 strings come back unchanged. -/
def goJson : Json Doc :=
  ⟨fun c => .ok (.registry c.viaJson),
    fun d =>
      match d with
      | .malformed => .error (go "unexpected end of JSON input")
      | .registry c => .ok c.viaJson⟩

/-- A name that is not valid UTF-8: the byte of "a" followed by the byte 0xFF. -/
def badName : GoString := [0x61, 0xFF]

/-- A path library for examples: `Join` puts a slash in between, `Dir` is constant. -/
def slashLib : PathLib := ⟨fun a b => a ++ go "/" ++ b, fun _ => go "/parent"⟩

/-- A registry for examples: two records, named "a" and "b". -/
def registryAB : Config :=
  ⟨[⟨go "a", go "https://x/a.git", go "main", go "/p/a"⟩,
    ⟨go "b", go "https://x/b.git", go "main", go "/p/b"⟩]⟩

/-- A configuration file for examples: the document holding `registryAB`. -/
def fileAB : Option Doc := some (.registry registryAB)

/-- Package variables for examples. -/
def rootGlobals : Globals := ⟨go "/root/.vendor/config.json", go "/root/.vendor"⟩

/-! ## Lemmas on the config store -/

theorem loadConfig_of_readErr_none {Bytes : Type} (j : Json Bytes) (f : Faults Bytes)
    (file : Option Bytes) (h : f.readErr = Option.none) :
    loadConfig j f file = persisted j file := by
  simp [persisted, loadConfig, readFile, h, Faults.none]

theorem readErr_none_of_loadConfig_ok {Bytes : Type} (j : Json Bytes) (f : Faults Bytes)
    (file : Option Bytes) (c : Config) (h : loadConfig j f file = .ok c) :
    f.readErr = Option.none := by
  cases hr : f.readErr with
  | none => rfl
  | some e => simp [loadConfig, readFile, hr, GoErr.isNotExist] at h

theorem persisted_of_loadConfig_ok {Bytes : Type} (j : Json Bytes) (f : Faults Bytes)
    (file : Option Bytes) (c : Config) (h : loadConfig j f file = .ok c) :
    persisted j file = .ok c := by
  rw [← loadConfig_of_readErr_none j f file (readErr_none_of_loadConfig_ok j f file c h), h]

theorem persisted_none {Bytes : Type} (j : Json Bytes) :
    persisted j (Option.none : Option Bytes) = .ok ⟨[]⟩ := by
  simp [persisted, loadConfig, readFile, Faults.none, GoErr.isNotExist]

theorem persisted_some {Bytes : Type} (j : Json Bytes) (data : Bytes) (c : Config)
    (h : j.unmarshal data = .ok c) : persisted j (some data) = .ok c := by
  simp [persisted, loadConfig, readFile, Faults.none, h]

/-- A save that reports no error leaves a file from which the saved registry is read
back, when the JSON library round-trips that registry. -/
theorem persisted_saveConfig_of_roundTrips {Bytes : Type} (g : Globals) (j : Json Bytes)
    (f : Faults Bytes) (c : Config) (file : Option Bytes) (hc : j.RoundTrips c)
    (h : (saveConfig g j f c file).err = Option.none) :
    persisted j (saveConfig g j f c file).file = .ok c := by
  obtain ⟨data, hm, hu⟩ := hc
  cases hmk : f.mkdirErr with
  | some e => simp [saveConfig, hmk] at h
  | none =>
    cases hw : f.writeErr with
    | some e => obtain ⟨e1, e2⟩ := e; simp [saveConfig, hmk, hm, hw] at h
    | none => simp [saveConfig, hmk, hm, hw]; exact persisted_some j data c hu

/-- A save without faults reports no error, when the JSON library round-trips the
registry. -/
theorem saveConfig_err_none_of_roundTrips {Bytes : Type} (g : Globals) (j : Json Bytes)
    (f : Faults Bytes) (c : Config) (file : Option Bytes) (hc : j.RoundTrips c)
    (hmk : f.mkdirErr = Option.none) (hw : f.writeErr = Option.none) :
    (saveConfig g j f c file).err = Option.none := by
  obtain ⟨data, hm, _⟩ := hc
  simp [saveConfig, hmk, hm, hw]

/-- A save always attempts a file-system mutation. -/
theorem saveConfig_ops_ne_nil {Bytes : Type} (g : Globals) (j : Json Bytes)
    (f : Faults Bytes) (c : Config) (file : Option Bytes) :
    (saveConfig g j f c file).ops ≠ [] := by
  unfold saveConfig
  split
  · simp
  · split
    · simp
    · split <;> simp

/-! ## Lemmas on Go strings and on the model of `encoding/json` -/

theorem jsonFrom_of_validFrom (k : Nat) (s : GoString) (h : validFrom k s = true) :
    jsonFrom k s = s := by
  induction s generalizing k with
  | nil => cases k <;> rfl
  | cons b rest ih =>
    cases k with
    | succ k => simp only [validFrom] at h; simp [jsonFrom, ih k h]
    | zero =>
      simp only [validFrom, Bool.and_eq_true, bne_iff_ne, ne_eq] at h
      simp [jsonFrom, h.1, ih _ h.2]

theorem runeLen_replacement (s : GoString) : runeLen (replacement ++ s) = 3 := by
  simp [replacement, runeLen, seqSize, secondOk, contByte]

theorem runeLen_jsonFrom (b : UInt8) (rest : GoString) (n : Nat)
    (h : runeLen (b :: rest) = n + 1) : runeLen (b :: jsonFrom n rest) = n + 1 := by
  by_cases h1 : seqSize b = 1
  · simp [runeLen, h1] at h ⊢
    exact h
  · cases rest with
    | nil => simp [runeLen, h1] at h
    | cons b1 r1 =>
      by_cases h2 : seqSize b = 2
      · by_cases hs : secondOk b b1 = true
        · simp [runeLen, h2, hs] at h
          subst h
          simp [jsonFrom, runeLen, h2, hs]
        · simp [runeLen, h2, hs] at h
      · cases r1 with
        | nil => simp [runeLen, h1, h2] at h
        | cons b2 r2 =>
          by_cases h3 : seqSize b = 3
          · by_cases hs : (secondOk b b1 && contByte b2) = true
            · have hs2 := hs
              simp only [Bool.and_eq_true] at hs2
              simp [runeLen, h3, hs2] at h
              subst h
              simp [jsonFrom, runeLen, h3, hs2]
            · have hs2 := hs
              simp only [Bool.and_eq_true] at hs2
              simp [runeLen, h3, hs2] at h
          · cases r2 with
            | nil => simp [runeLen, h1, h2, h3] at h
            | cons b3 r3 =>
              by_cases hs : (seqSize b = 4 && secondOk b b1 && contByte b2 && contByte b3) = true
              · have hs2 := hs
                simp only [Bool.and_eq_true, decide_eq_true_eq] at hs2
                simp [runeLen, hs2] at h
                subst h
                simp [jsonFrom, runeLen, hs2]
              · simp only [Bool.and_eq_true, decide_eq_true_eq] at hs
                simp [runeLen, h1, h2, h3, hs] at h

theorem jsonFrom_idem (k : Nat) (s : GoString) : jsonFrom k (jsonFrom k s) = jsonFrom k s := by
  induction s generalizing k with
  | nil => cases k <;> rfl
  | cons b rest ih =>
    cases k with
    | succ k => simp [jsonFrom, ih k]
    | zero =>
      by_cases h : runeLen (b :: rest) = 0
      · have h3 := runeLen_replacement (jsonFrom 0 rest)
        simp only [jsonFrom, h, if_true]
        simp only [replacement, List.cons_append, List.nil_append] at h3 ⊢
        simp [jsonFrom, h3, ih 0]
      · obtain ⟨n, hn⟩ := Nat.exists_eq_succ_of_ne_zero h
        have h3 := runeLen_jsonFrom b rest n hn
        simp only [jsonFrom, h, if_false, hn, Nat.succ_sub_one]
        simp [jsonFrom, h3, ih n]

theorem jsonString_idem (s : GoString) : jsonString (jsonString s) = jsonString s :=
  jsonFrom_idem 0 s

theorem jsonString_of_valid (s : GoString) (h : validUTF8 s = true) : jsonString s = s :=
  jsonFrom_of_validFrom 0 s h

theorem repo_viaJson_idem (r : Repo) : r.viaJson.viaJson = r.viaJson := by
  simp [Repo.viaJson, jsonString_idem]

theorem config_viaJson_idem (c : Config) : c.viaJson.viaJson = c.viaJson := by
  simp [Config.viaJson, repo_viaJson_idem]

theorem repo_viaJson_of_valid (r : Repo) (h : r.validUTF8 = true) : r.viaJson = r := by
  simp only [Repo.validUTF8, Bool.and_eq_true] at h
  obtain ⟨⟨⟨h1, h2⟩, h3⟩, h4⟩ := h
  simp [Repo.viaJson, jsonString_of_valid, h1, h2, h3, h4]

theorem config_viaJson_of_valid (c : Config) (h : c.validUTF8 = true) : c.viaJson = c := by
  obtain ⟨repos⟩ := c
  simp only [Config.validUTF8, List.all_eq_true] at h
  simp only [Config.viaJson, Config.mk.injEq]
  induction repos with
  | nil => rfl
  | cons r rest ih =>
    simp only [List.map_cons, List.cons.injEq]
    exact ⟨repo_viaJson_of_valid r (h r (by simp)),
      ih (fun x hx => h x (List.mem_cons_of_mem r hx))⟩

/-- What `goJson` unmarshals is left unchanged by `encoding/json`. -/
theorem goJson_loaded_fixed (f : Faults Doc) (file : Option Doc) (cfg : Config)
    (h : loadConfig goJson f file = .ok cfg) : cfg.viaJson = cfg := by
  unfold loadConfig at h
  cases hr : readFile f file with
  | error e =>
    rw [hr] at h
    by_cases he : e.isNotExist = true
    · simp only [he, if_true] at h
      rw [← Except.ok.inj h]; rfl
    · simp [he] at h
  | ok data =>
    rw [hr] at h
    cases data with
    | malformed => simp [goJson] at h
    | registry c =>
      simp only [goJson] at h
      rw [← Except.ok.inj h]
      exact config_viaJson_idem c

/-- The model `goJson` round-trips exactly the registries it leaves unchanged. -/
theorem goJson_roundTrips (c : Config) (h : c.viaJson = c) : goJson.RoundTrips c :=
  ⟨.registry c.viaJson, rfl, by simp [goJson, config_viaJson_idem, h]⟩

/-- A successful save through `goJson` leaves the coerced registry. -/
theorem goJson_persisted_save (g : Globals) (f : Faults Doc) (c : Config)
    (file : Option Doc) (h : (saveConfig g goJson f c file).err = Option.none) :
    persisted goJson (saveConfig g goJson f c file).file = .ok c.viaJson := by
  cases hmk : f.mkdirErr with
  | some e => simp [saveConfig, hmk] at h
  | none =>
    cases hw : f.writeErr with
    | some e => obtain ⟨e1, e2⟩ := e; simp [saveConfig, hmk, goJson, hw] at h
    | none =>
      simp only [saveConfig, hmk, goJson, hw]
      exact persisted_some goJson _ _ (by simp [goJson, config_viaJson_idem])

/-- A save through `goJson` that meets no fault reports no error. -/
theorem goJson_save_err_none (g : Globals) (f : Faults Doc) (c : Config)
    (file : Option Doc) (hmk : f.mkdirErr = Option.none) (hw : f.writeErr = Option.none) :
    (saveConfig g goJson f c file).err = Option.none := by
  simp [saveConfig, hmk, goJson, hw]

/-! ## Lemmas on the registry operations -/

theorem nameExists_iff (name : GoString) (repos : List Repo) :
    nameExists name repos = true ↔ name ∈ repos.map Repo.name := by
  induction repos with
  | nil => simp [nameExists]
  | cons r rest ih =>
    by_cases h : r.name = name
    · simp [nameExists, h]
    · have h2 : ¬ name = r.name := fun e => h e.symm
      simp [nameExists, h, h2, ih]

theorem nameExists_false_iff (name : GoString) (repos : List Repo) :
    nameExists name repos = false ↔ name ∉ repos.map Repo.name := by
  rw [← nameExists_iff]; simp

theorem removeLoop_spec (name : GoString) (pre rest : List Repo)
    (hpre : name ∉ pre.map Repo.name) :
    removeLoop name (pre ++ rest) rest pre.length =
      if nameExists name rest then some (pre ++ removeFirst name rest) else Option.none := by
  induction rest generalizing pre with
  | nil => simp [removeLoop, nameExists]
  | cons r rest ih =>
    by_cases h : r.name = name
    · simp [removeLoop, nameExists, removeFirst, h]
    · have h2 : name ∉ (pre ++ [r]).map Repo.name := by
        simp only [List.map_append, List.mem_append, not_or]
        exact ⟨hpre, by simpa using fun e => h e.symm⟩
      have := ih (pre ++ [r]) h2
      simp only [List.append_assoc, List.singleton_append, List.length_append,
        List.length_singleton] at this
      simp [removeLoop, nameExists, removeFirst, h, this]

theorem removeLoop_eq (name : GoString) (repos : List Repo) :
    removeLoop name repos repos 0 =
      if nameExists name repos then some (removeFirst name repos) else Option.none := by
  simpa using removeLoop_spec name [] repos (by simp)

theorem removeFirst_append_new (name : GoString) (repos : List Repo) (r : Repo)
    (hr : r.name = name) (h : name ∉ repos.map Repo.name) :
    removeFirst name (repos ++ [r]) = repos := by
  induction repos with
  | nil => simp [removeFirst, hr]
  | cons a rest ih =>
    simp only [List.map_cons, List.mem_cons, not_or] at h
    have ha : ¬ a.name = name := fun e => h.1 e.symm
    simp [removeFirst, ha, ih h.2]

theorem removeFirst_sublist (name : GoString) (repos : List Repo) :
    (removeFirst name repos).Sublist repos := by
  induction repos with
  | nil => simp [removeFirst]
  | cons a rest ih =>
    by_cases h : a.name = name
    · simp [removeFirst, h]
    · simp [removeFirst, h, ih]

theorem removeFirst_length (name : GoString) (repos : List Repo)
    (h : name ∈ repos.map Repo.name) :
    (removeFirst name repos).length + 1 = repos.length := by
  induction repos with
  | nil => simp at h
  | cons a rest ih =>
    by_cases ha : a.name = name
    · simp [removeFirst, ha]
    · have : name ∈ rest.map Repo.name := by
        simp only [List.map_cons, List.mem_cons] at h
        rcases h with h | h
        · exact absurd h.symm ha
        · exact h
      simp [removeFirst, ha, ih this]

/-- The first record named `name` splits the registry; `removeFirst` joins the parts. -/
theorem removeFirst_split (name : GoString) (repos : List Repo)
    (h : name ∈ repos.map Repo.name) :
    ∃ pre r post, repos = pre ++ r :: post ∧ r.name = name ∧
      name ∉ pre.map Repo.name ∧ removeFirst name repos = pre ++ post := by
  induction repos with
  | nil => simp at h
  | cons a rest ih =>
    by_cases ha : a.name = name
    · exact ⟨[], a, rest, by simp, ha, by simp, by simp [removeFirst, ha]⟩
    · have hr : name ∈ rest.map Repo.name := by
        simp only [List.map_cons, List.mem_cons] at h
        rcases h with h | h
        · exact absurd h.symm ha
        · exact h
      obtain ⟨pre, r, post, e, hn, hp, he⟩ := ih hr
      refine ⟨a :: pre, r, post, by simp [e], hn, ?_, by simp [removeFirst, ha, he]⟩
      simp only [List.map_cons, List.mem_cons, not_or]
      exact ⟨fun e => ha e.symm, hp⟩

/-- The defaults of `cmdAdd` (lines 72-80) compute the record `newRepo`. -/
theorem cmdAdd_unfold {Bytes : Type} (g : Globals) (lib : PathLib) (j : Json Bytes)
    (f : Faults Bytes) (name url : GoString) (extra : List GoString)
    (branchFlag pathFlag : Option GoString) (file : Option Bytes) (cfg : Config)
    (hl : loadConfig j f file = .ok cfg) :
    cmdAdd g lib j f (name :: url :: extra) branchFlag pathFlag file =
      if nameExists name cfg.repos then ⟨.duplicate name, file, [], []⟩
      else
        match (saveConfig g j f
            ⟨cfg.repos ++ [newRepo g lib name url branchFlag pathFlag]⟩ file).err with
        | some err =>
          ⟨.saveError err,
            (saveConfig g j f
              ⟨cfg.repos ++ [newRepo g lib name url branchFlag pathFlag]⟩ file).file,
            (saveConfig g j f
              ⟨cfg.repos ++ [newRepo g lib name url branchFlag pathFlag]⟩ file).ops, []⟩
        | Option.none =>
          ⟨.ok,
            (saveConfig g j f
              ⟨cfg.repos ++ [newRepo g lib name url branchFlag pathFlag]⟩ file).file,
            (saveConfig g j f
              ⟨cfg.repos ++ [newRepo g lib name url branchFlag pathFlag]⟩ file).ops,
            [go "✓ Added repo '" ++ name ++ go "' to config\n"]⟩ := by
  have hnew : (⟨name, url,
      (if cliString branchFlag (go "main") = go "" then go "main"
        else cliString branchFlag (go "main")),
      (if cliString pathFlag (go "") = go "" then lib.join g.vendorDir name
        else cliString pathFlag (go ""))⟩ : Repo) =
        newRepo g lib name url branchFlag pathFlag := by
    cases branchFlag <;> cases pathFlag <;> simp [newRepo, cliString]
  simp only [cmdAdd, List.length_cons, argsGet, List.getD_cons_zero, List.getD_cons_succ, hl,
    hnew]
  have : ¬ (extra.length + 1 + 1 < 2) := by omega
  simp only [this, if_false]

theorem cmdRemove_unfold {Bytes : Type} (g : Globals) (j : Json Bytes)
    (f : Faults Bytes) (name : GoString) (extra : List GoString) (file : Option Bytes)
    (cfg : Config) (hl : loadConfig j f file = .ok cfg) :
    cmdRemove g j f (name :: extra) file =
      if nameExists name cfg.repos then
        match (saveConfig g j f ⟨removeFirst name cfg.repos⟩ file).err with
        | some err =>
          ⟨.saveError err, (saveConfig g j f ⟨removeFirst name cfg.repos⟩ file).file,
            (saveConfig g j f ⟨removeFirst name cfg.repos⟩ file).ops, []⟩
        | Option.none =>
          ⟨.ok, (saveConfig g j f ⟨removeFirst name cfg.repos⟩ file).file,
            (saveConfig g j f ⟨removeFirst name cfg.repos⟩ file).ops,
            [go "✓ Removed repo '" ++ name ++ go "' from config\n"]⟩
      else ⟨.notFound name, file, [], []⟩ := by
  have : ¬ (extra.length + 1 < 1) := by omega
  simp only [cmdRemove, List.length_cons, this, if_false, argsGet, List.getD_cons_zero, hl,
    removeLoop_eq]
  split <;> simp_all

/-- A save whose write does not fail either reports no error or leaves the file alone. -/
theorem saveConfig_file_of_err {Bytes : Type} (g : Globals) (j : Json Bytes)
    (f : Faults Bytes) (c : Config) (file : Option Bytes) (err : GoErr)
    (hw : f.writeErr = Option.none) (h : (saveConfig g j f c file).err = some err) :
    (saveConfig g j f c file).file = file := by
  cases hmk : f.mkdirErr with
  | some e => simp [saveConfig, hmk]
  | none =>
    cases hm : j.marshalIndent c with
    | error e => simp [saveConfig, hmk, hm]
    | ok data => simp [saveConfig, hmk, hm, hw] at h

/-- What a successful `add` did. -/
theorem cmdAdd_ok_inv {Bytes : Type} (g : Globals) (lib : PathLib) (j : Json Bytes)
    (f : Faults Bytes) (args : List GoString)
    (branchFlag pathFlag : Option GoString) (file : Option Bytes)
    (h : (cmdAdd g lib j f args branchFlag pathFlag file).exit = .ok) :
    ∃ cfg name url extra, args = name :: url :: extra ∧ loadConfig j f file = .ok cfg ∧
      name ∉ cfg.names ∧
      (saveConfig g j f ⟨cfg.repos ++ [newRepo g lib name url branchFlag pathFlag]⟩
        file).err = Option.none ∧
      (cmdAdd g lib j f args branchFlag pathFlag file).file =
        (saveConfig g j f ⟨cfg.repos ++ [newRepo g lib name url branchFlag pathFlag]⟩
          file).file := by
  match args, h with
  | [], h => simp [cmdAdd] at h
  | [_], h => simp [cmdAdd] at h
  | name :: url :: extra, h =>
    cases hl : loadConfig j f file with
    | error e =>
      have : ¬ (extra.length + 1 + 1 < 2) := by omega
      simp [cmdAdd, hl, this] at h
    | ok cfg =>
      rw [cmdAdd_unfold g lib j f name url extra branchFlag pathFlag file cfg hl] at h ⊢
      cases hn : nameExists name cfg.repos with
      | true => simp [hn] at h
      | false =>
        simp only [hn, Bool.false_eq_true, if_false] at h ⊢
        cases hs : (saveConfig g j f
            ⟨cfg.repos ++ [newRepo g lib name url branchFlag pathFlag]⟩ file).err with
        | some err => simp [hs] at h
        | none =>
          exact ⟨cfg, name, url, extra, rfl, rfl,
            (nameExists_false_iff name cfg.repos).1 hn, hs, rfl⟩

/-- An `add` that did not succeed, and whose write did not fail, left the file alone. -/
theorem cmdAdd_fail_file {Bytes : Type} (g : Globals) (lib : PathLib) (j : Json Bytes)
    (f : Faults Bytes) (args : List GoString)
    (branchFlag pathFlag : Option GoString) (file : Option Bytes)
    (hw : f.writeErr = Option.none)
    (h : (cmdAdd g lib j f args branchFlag pathFlag file).exit ≠ .ok) :
    (cmdAdd g lib j f args branchFlag pathFlag file).file = file := by
  match args, h with
  | [], _ => simp [cmdAdd]
  | [_], _ => simp [cmdAdd]
  | name :: url :: extra, h =>
    cases hl : loadConfig j f file with
    | error e =>
      have : ¬ (extra.length + 1 + 1 < 2) := by omega
      simp [cmdAdd, hl, this]
    | ok cfg =>
      rw [cmdAdd_unfold g lib j f name url extra branchFlag pathFlag file cfg hl] at h ⊢
      cases hn : nameExists name cfg.repos with
      | true => simp
      | false =>
        simp only [Bool.false_eq_true, if_false] at h ⊢
        cases hs : (saveConfig g j f
            ⟨cfg.repos ++ [newRepo g lib name url branchFlag pathFlag]⟩ file).err with
        | some err =>
          simp only [hs]
          exact saveConfig_file_of_err g j f _ file err hw hs
        | none => simp [hs, hn] at h

/-- What a successful `remove` did. -/
theorem cmdRemove_ok_inv {Bytes : Type} (g : Globals) (j : Json Bytes)
    (f : Faults Bytes) (args : List GoString) (file : Option Bytes)
    (h : (cmdRemove g j f args file).exit = .ok) :
    ∃ cfg name extra, args = name :: extra ∧ loadConfig j f file = .ok cfg ∧
      name ∈ cfg.names ∧
      (saveConfig g j f ⟨removeFirst name cfg.repos⟩ file).err = Option.none ∧
      (cmdRemove g j f args file).file =
        (saveConfig g j f ⟨removeFirst name cfg.repos⟩ file).file := by
  match args, h with
  | [], h => simp [cmdRemove] at h
  | name :: extra, h =>
    cases hl : loadConfig j f file with
    | error e =>
      have : ¬ (extra.length + 1 < 1) := by omega
      simp [cmdRemove, hl, this] at h
    | ok cfg =>
      rw [cmdRemove_unfold g j f name extra file cfg hl] at h ⊢
      cases hn : nameExists name cfg.repos with
      | false => simp [hn] at h
      | true =>
        simp only [hn, if_true] at h ⊢
        cases hs : (saveConfig g j f ⟨removeFirst name cfg.repos⟩ file).err with
        | some err => simp [hs] at h
        | none =>
          exact ⟨cfg, name, extra, rfl, rfl, (nameExists_iff name cfg.repos).1 hn, hs, rfl⟩

/-- A `remove` that did not succeed, and whose write did not fail, left the file alone. -/
theorem cmdRemove_fail_file {Bytes : Type} (g : Globals) (j : Json Bytes)
    (f : Faults Bytes) (args : List GoString) (file : Option Bytes)
    (hw : f.writeErr = Option.none) (h : (cmdRemove g j f args file).exit ≠ .ok) :
    (cmdRemove g j f args file).file = file := by
  match args, h with
  | [], _ => simp [cmdRemove]
  | name :: extra, h =>
    cases hl : loadConfig j f file with
    | error e =>
      have : ¬ (extra.length + 1 < 1) := by omega
      simp [cmdRemove, hl, this]
    | ok cfg =>
      rw [cmdRemove_unfold g j f name extra file cfg hl] at h ⊢
      cases hn : nameExists name cfg.repos with
      | false => simp
      | true =>
        simp only [if_true] at h ⊢
        cases hs : (saveConfig g j f ⟨removeFirst name cfg.repos⟩ file).err with
        | some err =>
          simp only [hs]
          exact saveConfig_file_of_err g j f _ file err hw hs
        | none => simp [hs, hn] at h

theorem nodup_names_append_new (repos : List Repo) (r : Repo)
    (hnd : (repos.map Repo.name).Nodup) (hr : r.name ∉ repos.map Repo.name) :
    ((repos ++ [r]).map Repo.name).Nodup := by
  rw [List.map_append, List.nodup_append]
  refine ⟨hnd, by simp, ?_⟩
  intro a ha hb
  simp only [List.map_cons, List.map_nil, List.mem_singleton] at hb
  exact hr (hb ▸ ha)

theorem nodup_names_removeFirst (name : GoString) (repos : List Repo)
    (hnd : (repos.map Repo.name).Nodup) : ((removeFirst name repos).map Repo.name).Nodup :=
  List.Nodup.sublist ((removeFirst_sublist name repos).map Repo.name) hnd


theorem viaJson_repos_sublist (a b : List Repo) (h : a.Sublist b)
    (hb : (⟨b⟩ : Config).viaJson = ⟨b⟩) : (⟨a⟩ : Config).viaJson = ⟨a⟩ := by
  simp only [Config.viaJson, Config.mk.injEq] at hb ⊢
  have hfix : ∀ r ∈ b, r.viaJson = r := by
    intro r hr
    have := List.map_eq_map_iff.1 (hb.trans (List.map_id b).symm) r hr
    simpa using this
  calc a.map Repo.viaJson = a.map id :=
        List.map_congr_left (fun r hr => hfix r (h.subset hr))
    _ = a := List.map_id a

/-- A registry that `encoding/json` leaves unchanged stays so when a record is appended,
up to the coercion of that record. -/
theorem viaJson_append_new (cfg : Config) (r : Repo) (h : cfg.viaJson = cfg) :
    (⟨cfg.repos ++ [r]⟩ : Config).viaJson = ⟨cfg.repos ++ [r.viaJson]⟩ := by
  have h2 : cfg.repos.map Repo.viaJson = cfg.repos := by
    have := congrArg Config.repos h
    simpa [Config.viaJson] using this
  simp [Config.viaJson, h2]

/-- What a successful `add` through `goJson` persists: the loaded records, then the new
record as `encoding/json` gives it back. -/
theorem goJson_add_persisted (g : Globals) (lib : PathLib) (f : Faults Doc)
    (args : List GoString) (branchFlag pathFlag : Option GoString) (file : Option Doc)
    (h : (cmdAdd g lib goJson f args branchFlag pathFlag file).exit = .ok) :
    ∃ cfg name url extra, args = name :: url :: extra ∧
      loadConfig goJson f file = .ok cfg ∧ name ∉ cfg.names ∧
      persisted goJson (cmdAdd g lib goJson f args branchFlag pathFlag file).file =
        .ok ⟨cfg.repos ++ [(newRepo g lib name url branchFlag pathFlag).viaJson]⟩ := by
  obtain ⟨cfg, name, url, extra, ha, hl, hn, hs, hf⟩ :=
    cmdAdd_ok_inv g lib goJson f args branchFlag pathFlag file h
  refine ⟨cfg, name, url, extra, ha, hl, hn, ?_⟩
  rw [hf, goJson_persisted_save g f _ file hs,
    viaJson_append_new cfg _ (goJson_loaded_fixed f file cfg hl)]

/-- What a successful `remove` through `goJson` persists. -/
theorem goJson_remove_persisted (g : Globals) (f : Faults Doc)
    (args : List GoString) (file : Option Doc)
    (h : (cmdRemove g goJson f args file).exit = .ok) :
    ∃ cfg name extra, args = name :: extra ∧ loadConfig goJson f file = .ok cfg ∧
      name ∈ cfg.names ∧
      persisted goJson (cmdRemove g goJson f args file).file =
        .ok ⟨removeFirst name cfg.repos⟩ := by
  obtain ⟨cfg, name, extra, ha, hl, hn, hs, hf⟩ := cmdRemove_ok_inv g goJson f args file h
  refine ⟨cfg, name, extra, ha, hl, hn, ?_⟩
  rw [hf, goJson_persisted_save g f _ file hs]
  exact congrArg Except.ok (viaJson_repos_sublist _ cfg.repos (removeFirst_sublist name cfg.repos)
    (goJson_loaded_fixed f file cfg hl))

/-- Every part of a registry that `goJson` loaded is round-tripped by `goJson`. -/
theorem goJson_roundTrips_loaded (f : Faults Doc) (file : Option Doc) (cfg : Config)
    (hl : loadConfig goJson f file = .ok cfg) (c : Config)
    (hc : c.repos.Sublist cfg.repos) : goJson.RoundTrips c :=
  goJson_roundTrips c (viaJson_repos_sublist c.repos cfg.repos hc
    (goJson_loaded_fixed f file cfg hl))

/-! ## Claims on the registry operations -/

/-- C2: when the loaded registry already has a record named `name`, `add` ends with the
duplicate-name error (exit code 1), attempts no file-system mutation (no save), and leaves
the file, hence the persisted registry, exactly as it was, whatever the url, the extra
arguments and the branch and path flags are. -/
theorem add_duplicate_rejected {Bytes : Type} (g : Globals) (lib : PathLib)
    (j : Json Bytes) (f : Faults Bytes) (name url : GoString) (extra : List GoString)
    (branchFlag pathFlag : Option GoString) (file : Option Bytes) (cfg : Config)
    (hl : loadConfig j f file = .ok cfg) (hname : name ∈ cfg.names) :
    (cmdAdd g lib j f (name :: url :: extra) branchFlag pathFlag file).exit
        = .duplicate name ∧
      (cmdAdd g lib j f (name :: url :: extra) branchFlag pathFlag file).exit.code = 1 ∧
      (cmdAdd g lib j f (name :: url :: extra) branchFlag pathFlag file).ops = [] ∧
      (cmdAdd g lib j f (name :: url :: extra) branchFlag pathFlag file).file = file ∧
      persisted j (cmdAdd g lib j f (name :: url :: extra) branchFlag pathFlag file).file
        = .ok cfg := by
  have hn : nameExists name cfg.repos = true := (nameExists_iff name cfg.repos).2 hname
  rw [cmdAdd_unfold g lib j f name url extra branchFlag pathFlag file cfg hl]
  simp only [hn, if_true, Exit.code, true_and]
  exact persisted_of_loadConfig_ok j f file cfg hl

/-- Instance of C2: a second `add a` on the registry with records "a" and "b". -/
theorem add_duplicate_rejected_witness :
    (cmdAdd rootGlobals slashLib goJson Faults.none [go "a", go "https://x/c.git"]
        (some (go "dev")) Option.none fileAB).exit
        = .duplicate (go "a") ∧
      (cmdAdd rootGlobals slashLib goJson Faults.none [go "a", go "https://x/c.git"]
        (some (go "dev")) Option.none fileAB).exit.code = 1 ∧
      (cmdAdd rootGlobals slashLib goJson Faults.none [go "a", go "https://x/c.git"]
        (some (go "dev")) Option.none fileAB).ops = [] ∧
      (cmdAdd rootGlobals slashLib goJson Faults.none [go "a", go "https://x/c.git"]
        (some (go "dev")) Option.none fileAB).file
        = some (.registry registryAB) ∧
      persisted goJson (cmdAdd rootGlobals slashLib goJson Faults.none
        [go "a", go "https://x/c.git"] (some (go "dev")) Option.none
        fileAB).file = .ok registryAB :=
  add_duplicate_rejected rootGlobals slashLib goJson Faults.none (go "a")
    (go "https://x/c.git") [] (some (go "dev")) Option.none fileAB
    registryAB rfl (by decide)

/-- C4, as amended: when no record of the loaded registry is named `name`, the save meets
no fault, and the name, the url and the resulting branch and path are valid UTF-8, `add`
succeeds and persists exactly the loaded registry followed by one new record with the
given name and url, whose branch is the `--branch` flag, or "main" when the flag is
omitted or empty, and whose path is the `--path` flag, or `Join(vendorDir, name)` when
the flag is omitted or empty. -/
theorem add_appends_with_defaults (g : Globals) (lib : PathLib) (f : Faults Doc)
    (name url : GoString) (extra : List GoString) (branchFlag pathFlag : Option GoString)
    (file : Option Doc) (cfg : Config) (hl : loadConfig goJson f file = .ok cfg)
    (hmk : f.mkdirErr = Option.none) (hw : f.writeErr = Option.none)
    (hname : name ∉ cfg.names)
    (hv : Repo.validUTF8 ⟨name, url,
        if branchFlag = Option.none ∨ branchFlag = some (go "") then go "main"
          else branchFlag.getD (go ""),
        if pathFlag = Option.none ∨ pathFlag = some (go "") then lib.join g.vendorDir name
          else pathFlag.getD (go "")⟩ = true) :
    (cmdAdd g lib goJson f (name :: url :: extra) branchFlag pathFlag file).exit = .ok ∧
      persisted goJson
          (cmdAdd g lib goJson f (name :: url :: extra) branchFlag pathFlag file).file
        = .ok ⟨cfg.repos ++
            [⟨name, url,
              if branchFlag = Option.none ∨ branchFlag = some (go "") then go "main"
                else branchFlag.getD (go ""),
              if pathFlag = Option.none ∨ pathFlag = some (go "") then
                lib.join g.vendorDir name
                else pathFlag.getD (go "")⟩]⟩ := by
  have hn : nameExists name cfg.repos = false := (nameExists_false_iff name cfg.repos).2 hname
  have hs := goJson_save_err_none g f
    ⟨cfg.repos ++ [newRepo g lib name url branchFlag pathFlag]⟩ file hmk hw
  have hnew : newRepo g lib name url branchFlag pathFlag =
      ⟨name, url,
        if branchFlag = Option.none ∨ branchFlag = some (go "") then go "main"
          else branchFlag.getD (go ""),
        if pathFlag = Option.none ∨ pathFlag = some (go "") then lib.join g.vendorDir name
          else pathFlag.getD (go "")⟩ := by
    cases branchFlag <;> cases pathFlag <;> simp [newRepo]
  have hex : (cmdAdd g lib goJson f (name :: url :: extra) branchFlag pathFlag file).exit
      = .ok := by
    rw [cmdAdd_unfold g lib goJson f name url extra branchFlag pathFlag file cfg hl]
    simp only [hn, Bool.false_eq_true, if_false, hs]
  obtain ⟨cfg', name', url', extra', ha, hl', _, hp⟩ :=
    goJson_add_persisted g lib f (name :: url :: extra) branchFlag pathFlag file hex
  have hc : cfg' = cfg := by rw [hl] at hl'; exact (Except.ok.inj hl').symm
  simp only [List.cons.injEq] at ha
  obtain ⟨h1, h2, _⟩ := ha
  subst h1 h2 hc
  rw [← hnew] at hv ⊢
  rw [repo_viaJson_of_valid _ hv] at hp
  exact ⟨hex, hp⟩

/-- Instance of C4, the scenario of the spec: `add demo <url>` on no file at all. -/
theorem add_appends_with_defaults_witness :
    (cmdAdd rootGlobals slashLib goJson Faults.none
        [go "demo", go "https://example.com/demo.git"]
        Option.none Option.none Option.none).exit = .ok ∧
      persisted goJson (cmdAdd rootGlobals slashLib goJson Faults.none
        [go "demo", go "https://example.com/demo.git"]
        Option.none Option.none Option.none).file
        = .ok ⟨[⟨go "demo", go "https://example.com/demo.git", go "main",
            go "/root/.vendor/demo"⟩]⟩ :=
  add_appends_with_defaults rootGlobals slashLib Faults.none (go "demo")
    (go "https://example.com/demo.git") [] Option.none Option.none Option.none ⟨[]⟩
    rfl rfl rfl (by decide) (by decide)

/-- C4 as stated fails: `add` of the name "a\xFF" (not valid UTF-8) on no file succeeds,
and the persisted record has the byte 0xFF of its name and of its default path replaced
by U+FFFD: it is not the record with the given name. -/
theorem add_appends_counterexample :
    (cmdAdd rootGlobals slashLib goJson Faults.none [badName, go "https://x/a.git"]
        Option.none Option.none Option.none).exit = .ok ∧
      persisted goJson (cmdAdd rootGlobals slashLib goJson Faults.none
        [badName, go "https://x/a.git"] Option.none Option.none Option.none).file
        = .ok ⟨[⟨go "a\uFFFD", go "https://x/a.git", go "main",
            go "/root/.vendor/a\uFFFD"⟩]⟩ ∧
      persisted goJson (cmdAdd rootGlobals slashLib goJson Faults.none
        [badName, go "https://x/a.git"] Option.none Option.none Option.none).file
        ≠ .ok ⟨[] ++ [⟨badName, go "https://x/a.git", go "main",
            slashLib.join rootGlobals.vendorDir badName⟩]⟩ := by
  refine ⟨by decide, rfl, ?_⟩
  intro h
  exact absurd (Except.ok.inj h) (by decide)

/-- C3: once the registry has loaded, the save meets no fault and the JSON library
round-trips every part of the loaded registry (as `encoding/json` does for what it
unmarshalled, see `goJson_roundTrips_loaded`), `remove` ends with the not-found error
exactly when no record is named `name`; in that case the exit code is 1, nothing is
written and the file is unchanged; otherwise it succeeds and the persisted registry is the
loaded sequence with the first record named `name` cut out, all other records as they were
and in their order, so one record fewer. -/
theorem remove_first_match {Bytes : Type} (g : Globals) (j : Json Bytes)
    (f : Faults Bytes) (name : GoString) (extra : List GoString) (file : Option Bytes)
    (cfg : Config) (hl : loadConfig j f file = .ok cfg)
    (hj : ∀ c : Config, c.repos.Sublist cfg.repos → j.RoundTrips c)
    (hmk : f.mkdirErr = Option.none) (hw : f.writeErr = Option.none) :
    ((cmdRemove g j f (name :: extra) file).exit = .notFound name ↔ name ∉ cfg.names) ∧
      (name ∉ cfg.names →
        (cmdRemove g j f (name :: extra) file).exit.code = 1 ∧
        (cmdRemove g j f (name :: extra) file).ops = [] ∧
        (cmdRemove g j f (name :: extra) file).file = file ∧
        persisted j (cmdRemove g j f (name :: extra) file).file = .ok cfg) ∧
      (name ∈ cfg.names →
        (cmdRemove g j f (name :: extra) file).exit = .ok ∧
        ∃ pre r post, cfg.repos = pre ++ r :: post ∧ r.name = name ∧
          name ∉ pre.map Repo.name ∧
          persisted j (cmdRemove g j f (name :: extra) file).file = .ok ⟨pre ++ post⟩ ∧
          (pre ++ post).length + 1 = cfg.repos.length) := by
  have hrt : j.RoundTrips ⟨removeFirst name cfg.repos⟩ :=
    hj ⟨removeFirst name cfg.repos⟩ (removeFirst_sublist name cfg.repos)
  have hs := saveConfig_err_none_of_roundTrips g j f ⟨removeFirst name cfg.repos⟩ file hrt
    hmk hw
  have hp := persisted_saveConfig_of_roundTrips g j f ⟨removeFirst name cfg.repos⟩ file hrt
    hs
  rw [cmdRemove_unfold g j f name extra file cfg hl]
  by_cases hname : name ∈ cfg.names
  · have hn : nameExists name cfg.repos = true := (nameExists_iff name cfg.repos).2 hname
    simp only [hn, if_true, hs]
    refine ⟨by simp [hname], fun h => absurd hname h, fun _ => ⟨trivial, ?_⟩⟩
    obtain ⟨pre, r, post, e, hr, hpre, hrm⟩ := removeFirst_split name cfg.repos hname
    refine ⟨pre, r, post, e, hr, hpre, ?_, ?_⟩
    · rw [← hrm]; exact hp
    · rw [e]; simp only [List.length_append, List.length_cons]; omega
  · have hn : nameExists name cfg.repos = false :=
      (nameExists_false_iff name cfg.repos).2 hname
    simp only [hn, Bool.false_eq_true, if_false, Exit.code]
    exact ⟨by simp [hname], fun _ => ⟨trivial, trivial, trivial,
      persisted_of_loadConfig_ok j f file cfg hl⟩, fun h => absurd h hname⟩

/-- Instance of C3: `remove a` on the registry with records "a" and "b". -/
theorem remove_first_match_witness :
    ((cmdRemove rootGlobals goJson Faults.none [go "a"] fileAB).exit
        = .notFound (go "a") ↔ go "a" ∉ registryAB.names) ∧
      (go "a" ∉ registryAB.names →
        (cmdRemove rootGlobals goJson Faults.none [go "a"]
          fileAB).exit.code = 1 ∧
        (cmdRemove rootGlobals goJson Faults.none [go "a"]
          fileAB).ops = [] ∧
        (cmdRemove rootGlobals goJson Faults.none [go "a"]
          fileAB).file = some (.registry registryAB) ∧
        persisted goJson (cmdRemove rootGlobals goJson Faults.none [go "a"]
          fileAB).file = .ok registryAB) ∧
      (go "a" ∈ registryAB.names →
        (cmdRemove rootGlobals goJson Faults.none [go "a"]
          fileAB).exit = .ok ∧
        ∃ pre r post, registryAB.repos = pre ++ r :: post ∧ r.name = go "a" ∧
          go "a" ∉ pre.map Repo.name ∧
          persisted goJson (cmdRemove rootGlobals goJson Faults.none [go "a"]
            fileAB).file = .ok ⟨pre ++ post⟩ ∧
          (pre ++ post).length + 1 = registryAB.repos.length) :=
  remove_first_match rootGlobals goJson Faults.none (go "a") []
    fileAB registryAB rfl
    (goJson_roundTrips_loaded Faults.none fileAB registryAB rfl)
    rfl rfl

/-- C5, as amended: when the name is valid UTF-8, no record of the loaded registry bears
it and neither save meets a fault, `add` of the name followed by `remove` of the name both
succeed and the persisted registry is again the registry loaded before the `add`: the
same records, field for field, in the same order; whatever the url, branch and path. -/
theorem add_then_remove_restores (g : Globals) (lib : PathLib) (f₁ f₂ : Faults Doc)
    (name url : GoString) (extra₁ extra₂ : List GoString)
    (branchFlag pathFlag : Option GoString) (file : Option Doc) (cfg : Config)
    (hl : loadConfig goJson f₁ file = .ok cfg)
    (hmk₁ : f₁.mkdirErr = Option.none) (hw₁ : f₁.writeErr = Option.none)
    (hr₂ : f₂.readErr = Option.none) (hmk₂ : f₂.mkdirErr = Option.none)
    (hw₂ : f₂.writeErr = Option.none) (hname : name ∉ cfg.names)
    (hv : validUTF8 name = true) :
    (cmdAdd g lib goJson f₁ (name :: url :: extra₁) branchFlag pathFlag file).exit = .ok ∧
      (cmdRemove g goJson f₂ (name :: extra₂)
        (cmdAdd g lib goJson f₁ (name :: url :: extra₁) branchFlag pathFlag file).file).exit
        = .ok ∧
      persisted goJson (cmdRemove g goJson f₂ (name :: extra₂)
        (cmdAdd g lib goJson f₁ (name :: url :: extra₁) branchFlag pathFlag file).file).file
        = .ok cfg := by
  have hn : nameExists name cfg.repos = false := (nameExists_false_iff name cfg.repos).2 hname
  have hs := goJson_save_err_none g f₁
    ⟨cfg.repos ++ [newRepo g lib name url branchFlag pathFlag]⟩ file hmk₁ hw₁
  have hex : (cmdAdd g lib goJson f₁ (name :: url :: extra₁) branchFlag pathFlag file).exit
      = .ok := by
    rw [cmdAdd_unfold g lib goJson f₁ name url extra₁ branchFlag pathFlag file cfg hl]
    simp only [hn, Bool.false_eq_true, if_false, hs]
  obtain ⟨cfg', name', url', extra', ha, hl', _, hp⟩ :=
    goJson_add_persisted g lib f₁ (name :: url :: extra₁) branchFlag pathFlag file hex
  have hc : cfg' = cfg := by rw [hl] at hl'; exact (Except.ok.inj hl').symm
  simp only [List.cons.injEq] at ha
  obtain ⟨h1, h2, _⟩ := ha
  subst h1 h2 hc
  have hl₂ : loadConfig goJson f₂
      (cmdAdd g lib goJson f₁ (name :: url :: extra₁) branchFlag pathFlag file).file =
      .ok ⟨cfg'.repos ++ [(newRepo g lib name url branchFlag pathFlag).viaJson]⟩ := by
    rw [loadConfig_of_readErr_none goJson f₂ _ hr₂]; exact hp
  have hnm : (newRepo g lib name url branchFlag pathFlag).viaJson.name = name := by
    simp [newRepo, Repo.viaJson, jsonString_of_valid name hv]
  have hn₂ : nameExists name
      (cfg'.repos ++ [(newRepo g lib name url branchFlag pathFlag).viaJson]) = true := by
    rw [nameExists_iff]; simp [hnm]
  have hrm : removeFirst name
      (cfg'.repos ++ [(newRepo g lib name url branchFlag pathFlag).viaJson]) = cfg'.repos :=
    removeFirst_append_new name cfg'.repos _ hnm hname
  have hs₂ := goJson_save_err_none g f₂ cfg'
    (cmdAdd g lib goJson f₁ (name :: url :: extra₁) branchFlag pathFlag file).file hmk₂ hw₂
  have hp₂ := goJson_persisted_save g f₂ cfg'
    (cmdAdd g lib goJson f₁ (name :: url :: extra₁) branchFlag pathFlag file).file hs₂
  rw [goJson_loaded_fixed f₁ file cfg' hl] at hp₂
  refine ⟨hex, ?_, ?_⟩
  · rw [cmdRemove_unfold g goJson f₂ name extra₂ _ _ hl₂]
    simp only [hn₂, if_true, hrm, hs₂]
  · rw [cmdRemove_unfold g goJson f₂ name extra₂ _ _ hl₂]
    simp only [hn₂, if_true, hrm, hs₂]
    exact hp₂

/-- Instance of C5: `add x` with a url that is not valid UTF-8, then `remove x`, on the
registry with records "a" and "b". -/
theorem add_then_remove_restores_witness :
    (cmdAdd rootGlobals slashLib goJson Faults.none [go "x", badName] Option.none
        Option.none fileAB).exit = .ok ∧
      (cmdRemove rootGlobals goJson Faults.none [go "x"]
        (cmdAdd rootGlobals slashLib goJson Faults.none [go "x", badName] Option.none
          Option.none fileAB).file).exit = .ok ∧
      persisted goJson (cmdRemove rootGlobals goJson Faults.none [go "x"]
        (cmdAdd rootGlobals slashLib goJson Faults.none [go "x", badName] Option.none
          Option.none fileAB).file).file
        = .ok registryAB :=
  add_then_remove_restores rootGlobals slashLib Faults.none Faults.none (go "x") badName
    [] [] Option.none Option.none fileAB registryAB
    rfl rfl rfl rfl rfl rfl (by decide) (by decide)

/-- C5 as stated fails: on no file, `add` of the name "a\xFF" (not valid UTF-8) succeeds
and stores the name with the byte 0xFF replaced by U+FFFD; the following `remove` of
"a\xFF" finds no record of that name and ends with the not-found error, so the added
record stays in the registry. -/
theorem add_then_remove_counterexample :
    loadConfig goJson Faults.none Option.none = .ok ⟨[]⟩ ∧
      badName ∉ (⟨[]⟩ : Config).names ∧
      (cmdAdd rootGlobals slashLib goJson Faults.none [badName, go "https://x/a.git"]
        Option.none Option.none Option.none).exit = .ok ∧
      (cmdRemove rootGlobals goJson Faults.none [badName]
        (cmdAdd rootGlobals slashLib goJson Faults.none [badName, go "https://x/a.git"]
          Option.none Option.none Option.none).file).exit = .notFound badName ∧
      persisted goJson (cmdRemove rootGlobals goJson Faults.none [badName]
        (cmdAdd rootGlobals slashLib goJson Faults.none [badName, go "https://x/a.git"]
          Option.none Option.none Option.none).file).file ≠ .ok ⟨[]⟩ := by
  refine ⟨rfl, by decide, by decide, by decide, ?_⟩
  intro h
  have h2 : persisted goJson (cmdRemove rootGlobals goJson Faults.none [badName]
      (cmdAdd rootGlobals slashLib goJson Faults.none [badName, go "https://x/a.git"]
        Option.none Option.none Option.none).file).file
      = .ok ⟨[⟨go "a\uFFFD", go "https://x/a.git", go "main",
          go "/root/.vendor/a\uFFFD"⟩]⟩ := rfl
  rw [h2] at h
  exact absurd (Except.ok.inj h) (by decide)

theorem uniqueNames_cmdAdd_ok (g : Globals) (lib : PathLib) (f : Faults Doc)
    (args : List GoString) (branchFlag pathFlag : Option GoString) (file : Option Doc)
    (hu : UniqueNames goJson file) (hv : validUTF8 (argsGet args 0) = true)
    (h : (cmdAdd g lib goJson f args branchFlag pathFlag file).exit = .ok) :
    UniqueNames goJson (cmdAdd g lib goJson f args branchFlag pathFlag file).file := by
  obtain ⟨cfg, name, url, extra, ha, hl, hname, hp⟩ :=
    goJson_add_persisted g lib f args branchFlag pathFlag file h
  obtain ⟨cfg₀, hp₀, hnd⟩ := hu
  have : cfg₀ = cfg := by
    have := persisted_of_loadConfig_ok goJson f file cfg hl
    rw [hp₀] at this; exact Except.ok.inj this
  subst this ha
  refine ⟨_, hp, nodup_names_append_new cfg₀.repos _ hnd ?_⟩
  have hnm : (newRepo g lib name url branchFlag pathFlag).viaJson.name = name := by
    simp only [argsGet, List.getD_cons_zero] at hv
    simp [newRepo, Repo.viaJson, jsonString_of_valid name hv]
  rw [hnm]
  exact hname

theorem uniqueNames_cmdRemove_ok (g : Globals) (f : Faults Doc) (args : List GoString)
    (file : Option Doc) (hu : UniqueNames goJson file)
    (h : (cmdRemove g goJson f args file).exit = .ok) :
    UniqueNames goJson (cmdRemove g goJson f args file).file := by
  obtain ⟨cfg, name, extra, _, hl, _, hp⟩ := goJson_remove_persisted g f args file h
  obtain ⟨cfg₀, hp₀, hnd⟩ := hu
  have : cfg₀ = cfg := by
    have := persisted_of_loadConfig_ok goJson f file cfg hl
    rw [hp₀] at this; exact Except.ok.inj this
  subst this
  exact ⟨_, hp, nodup_names_removeFirst name cfg₀.repos hnd⟩

theorem uniqueNames_step (g : Globals) (lib : PathLib) (file next : Option Doc)
    (s : Step g lib goJson file next) (hu : UniqueNames goJson file) :
    UniqueNames goJson next := by
  cases s with
  | add f args branchFlag pathFlag _ hw hv =>
    by_cases h : (cmdAdd g lib goJson f args branchFlag pathFlag file).exit = .ok
    · exact uniqueNames_cmdAdd_ok g lib f args branchFlag pathFlag file hu hv h
    · rw [cmdAdd_fail_file g lib goJson f args branchFlag pathFlag file hw h]; exact hu
  | remove f args _ hw =>
    by_cases h : (cmdRemove g goJson f args file).exit = .ok
    · exact uniqueNames_cmdRemove_ok g f args file hu h
    · rw [cmdRemove_fail_file g goJson f args file hw h]; exact hu

/-- C1, as amended: name uniqueness is an invariant of the registry operations as long as
the names given to `add` are valid UTF-8.  If the persisted registry has pairwise distinct
record names, so has the registry persisted by any successful `add` of a valid UTF-8 name
and by any successful `remove`; hence every file reached from an empty registry by any
sequence of `remove` invocations and of `add` invocations with valid UTF-8 names holds a
registry with pairwise distinct names. -/
theorem names_unique_invariant (g : Globals) (lib : PathLib) :
    (∀ (f : Faults Doc) (args : List GoString) (branchFlag pathFlag : Option GoString)
        (file : Option Doc), UniqueNames goJson file →
        validUTF8 (argsGet args 0) = true →
        (cmdAdd g lib goJson f args branchFlag pathFlag file).exit = .ok →
        UniqueNames goJson (cmdAdd g lib goJson f args branchFlag pathFlag file).file) ∧
      (∀ (f : Faults Doc) (args : List GoString) (file : Option Doc),
        UniqueNames goJson file → (cmdRemove g goJson f args file).exit = .ok →
        UniqueNames goJson (cmdRemove g goJson f args file).file) ∧
      (∀ start file : Option Doc, persisted goJson start = .ok ⟨[]⟩ →
        Reachable g lib goJson start file → UniqueNames goJson file) := by
  refine ⟨fun f args bf pf file hu hv h => uniqueNames_cmdAdd_ok g lib f args bf pf file hu hv h,
    fun f args file hu h => uniqueNames_cmdRemove_ok g f args file hu h, ?_⟩
  intro start file h0 hr
  induction hr with
  | refl => exact ⟨⟨[]⟩, h0, by simp [Config.names]⟩
  | step mid next _ s ih => exact uniqueNames_step g lib mid next s ih

/-- Instance of C1: `add a`, `add b`, `remove a` from no file at all. -/
theorem names_unique_invariant_witness :
    UniqueNames goJson
      (cmdRemove rootGlobals goJson Faults.none [go "a"]
        (cmdAdd rootGlobals slashLib goJson Faults.none [go "b", go "https://x/b.git"]
          Option.none Option.none
          (cmdAdd rootGlobals slashLib goJson Faults.none [go "a", go "https://x/a.git"]
            Option.none Option.none Option.none).file).file).file :=
  (names_unique_invariant rootGlobals slashLib).2.2 Option.none _
    (persisted_none goJson)
    (.step _ _ (.step _ _ (.step _ _ .refl (.add Faults.none _ _ _ _ rfl (by decide)))
      (.add Faults.none _ _ _ _ rfl (by decide))) (.remove Faults.none _ _ rfl))

/-- C1 as stated fails: from no file (the empty registry), `add` of the name "a\xFF" (not
valid UTF-8) succeeds twice, because the stored name, with 0xFF replaced by U+FFFD, never
equals the argument; the persisted registry then has two records of the same name. -/
theorem names_unique_counterexample :
    UniqueNames goJson Option.none ∧
      (cmdAdd rootGlobals slashLib goJson Faults.none [badName, go "https://x/1.git"]
        Option.none Option.none Option.none).exit = .ok ∧
      (cmdAdd rootGlobals slashLib goJson Faults.none [badName, go "https://x/2.git"]
        Option.none Option.none
        (cmdAdd rootGlobals slashLib goJson Faults.none [badName, go "https://x/1.git"]
          Option.none Option.none Option.none).file).exit = .ok ∧
      ¬ UniqueNames goJson
        (cmdAdd rootGlobals slashLib goJson Faults.none [badName, go "https://x/2.git"]
          Option.none Option.none
          (cmdAdd rootGlobals slashLib goJson Faults.none [badName, go "https://x/1.git"]
            Option.none Option.none Option.none).file).file := by
  refine ⟨⟨⟨[]⟩, rfl, by decide⟩, by decide, by decide, ?_⟩
  rintro ⟨cfg, hp, hnd⟩
  have h2 : persisted goJson
      (cmdAdd rootGlobals slashLib goJson Faults.none [badName, go "https://x/2.git"]
        Option.none Option.none
        (cmdAdd rootGlobals slashLib goJson Faults.none [badName, go "https://x/1.git"]
          Option.none Option.none Option.none).file).file
      = .ok ⟨[⟨go "a\uFFFD", go "https://x/1.git", go "main", go "/root/.vendor/a\uFFFD"⟩,
          ⟨go "a\uFFFD", go "https://x/2.git", go "main", go "/root/.vendor/a\uFFFD"⟩]⟩ := rfl
  rw [h2] at hp
  rw [← Except.ok.inj hp] at hnd
  exact absurd hnd (by decide)

/-! ## Claims on the config store -/

/-- C6, as amended: save/load round trip for registries whose strings are valid UTF-8.
For every such registry, whatever the number of its records, a `saveConfig` that meets no
fault reports no error and writes the registry to `configPath`, and a `loadConfig` of the
same path that can read the file returns the saved registry: same records, same order,
same fields. -/
theorem save_load_roundtrip (g : Globals) (f₁ f₂ : Faults Doc) (config : Config)
    (file : Option Doc) (hv : config.validUTF8 = true)
    (hmk : f₁.mkdirErr = Option.none) (hw : f₁.writeErr = Option.none)
    (hr : f₂.readErr = Option.none) :
    (saveConfig g goJson f₁ config file).err = Option.none ∧
      (saveConfig g goJson f₁ config file).file = some (.registry config) ∧
      (saveConfig g goJson f₁ config file).ops =
        [.mkdirAll g.vendorDir, .writeFile g.configPath (.registry config)] ∧
      loadConfig goJson f₂ (saveConfig g goJson f₁ config file).file = .ok config := by
  have hs := goJson_save_err_none g f₁ config file hmk hw
  have hfix := config_viaJson_of_valid config hv
  refine ⟨hs, ?_, ?_, ?_⟩
  · simp [saveConfig, hmk, hw, goJson, hfix]
  · simp [saveConfig, hmk, hw, goJson, hfix]
  · rw [loadConfig_of_readErr_none goJson f₂ _ hr, goJson_persisted_save g f₁ config file hs,
      hfix]

/-- Instance of C6: the registry with records "a" and "b", saved where no file was. -/
theorem save_load_roundtrip_witness :
    (saveConfig rootGlobals goJson Faults.none registryAB Option.none).err = Option.none ∧
      (saveConfig rootGlobals goJson Faults.none registryAB Option.none).file
        = some (.registry registryAB) ∧
      (saveConfig rootGlobals goJson Faults.none registryAB Option.none).ops =
        [.mkdirAll rootGlobals.vendorDir,
          .writeFile rootGlobals.configPath (.registry registryAB)] ∧
      loadConfig goJson Faults.none
        (saveConfig rootGlobals goJson Faults.none registryAB Option.none).file
        = .ok registryAB :=
  save_load_roundtrip rootGlobals Faults.none Faults.none registryAB Option.none
    (by decide) rfl rfl rfl

/-- C6 as stated fails: the registry with one record whose name is "a\xFF" and whose url
is "u\xC3" (neither valid UTF-8) is saved without error, and the load that follows returns
a record whose name and url have the offending byte replaced by U+FFFD, not the saved
record. -/
theorem save_load_counterexample :
    (saveConfig rootGlobals goJson Faults.none
        ⟨[⟨badName, [0x75, 0xC3], go "main", go "/p/a"⟩]⟩ Option.none).err = Option.none ∧
      loadConfig goJson Faults.none
        (saveConfig rootGlobals goJson Faults.none
          ⟨[⟨badName, [0x75, 0xC3], go "main", go "/p/a"⟩]⟩ Option.none).file
        = .ok ⟨[⟨go "a\uFFFD", go "u\uFFFD", go "main", go "/p/a"⟩]⟩ ∧
      loadConfig goJson Faults.none
        (saveConfig rootGlobals goJson Faults.none
          ⟨[⟨badName, [0x75, 0xC3], go "main", go "/p/a"⟩]⟩ Option.none).file
        ≠ .ok ⟨[⟨badName, [0x75, 0xC3], go "main", go "/p/a"⟩]⟩ := by
  refine ⟨rfl, rfl, ?_⟩
  intro h
  exact absurd (Except.ok.inj h) (by decide)

/-- C7: when no file exists at the configuration path and the read meets no other
failure, `loadConfig` returns no error and a registry with zero records (being a function
of the file content, it creates nothing); a read failure of any other kind is returned as
the error, whatever is at the path. -/
theorem load_missing_is_empty {Bytes : Type} (j : Json Bytes)
    (mk : Option GoString) (wr : Option (GoString × Option Bytes)) :
    loadConfig j ⟨Option.none, mk, wr⟩ Option.none = .ok ⟨[]⟩ ∧
      (∀ (e : GoString) (file : Option Bytes),
        loadConfig j ⟨some e, mk, wr⟩ file = .error (.other e)) := by
  refine ⟨?_, fun e file => ?_⟩
  · simp [loadConfig, readFile, GoErr.isNotExist]
  · simp [loadConfig, readFile, GoErr.isNotExist]

/-! ## Lemmas on the sync engine -/

theorem agrees_append (o : Oracle) (hist a b : List Event) :
    agrees o hist (a ++ b) = (agrees o hist a && agrees o (hist ++ a) b) := by
  induction a generalizing hist with
  | nil => simp [agrees]
  | cons e a ih => simp [agrees, ih, Bool.and_assoc]

/-- One loop iteration extends the trace by a complete run of the state machine that
records the answers of the world. -/
theorem syncRepo_run (lib : PathLib) (o : Oracle) (repo : Repo) (tr : List Event) :
    ∃ seg, syncRepo lib o repo tr = (tr ++ seg, (syncRepo lib o repo tr).2) ∧
      SyncRun lib repo seg (syncRepo lib o repo tr).2 ∧ agrees o tr seg = true := by
  unfold syncRepo
  simp only []
  cases hst : o.stat (tr ++ [.print (.processing repo)]) (lib.join repo.path (go ".git")) with
  | true =>
    simp only [if_true, syncExisting, runGit]
    generalize hf : o.git _ (some repo.path) [go "fetch", go "origin"] = rf
    cases rf with
    | some e =>
      refine ⟨_, ?_, SyncRun.fetchFailed e, ?_⟩
      · simp
      · simp only [List.append_assoc, List.singleton_append, List.cons_append,
          List.nil_append] at hst hf
        simp [agrees, Event.agrees, hst, hf]
    | none =>
      simp only []
      generalize hc : o.git _ (some repo.path) [go "checkout", repo.branch] = rc
      cases rc with
      | none =>
        simp only [syncPull, runGit]
        generalize hp : o.git _ (some repo.path) [go "pull", go "origin", repo.branch] = rp
        cases rp with
        | none =>
          refine ⟨_, ?_, SyncRun.checkoutPull, ?_⟩
          · simp
          · simp only [List.append_assoc, List.singleton_append, List.cons_append,
              List.nil_append] at hst hf hc hp
            simp [agrees, Event.agrees, hst, hf, hc, hp]
        | some e =>
          refine ⟨_, ?_, SyncRun.checkoutPullFailed e, ?_⟩
          · simp
          · simp only [List.append_assoc, List.singleton_append, List.cons_append,
              List.nil_append] at hst hf hc hp
            simp [agrees, Event.agrees, hst, hf, hc, hp]
      | some c =>
        simp only []
        generalize hb : o.git _ (some repo.path)
          [go "checkout", go "-b", repo.branch, go "origin/" ++ repo.branch] = rb
        cases rb with
        | some e =>
          refine ⟨_, ?_, SyncRun.createFailed c e, ?_⟩
          · simp
          · simp only [List.append_assoc, List.singleton_append, List.cons_append,
              List.nil_append] at hst hf hc hb
            simp [agrees, Event.agrees, hst, hf, hc, hb]
        | none =>
          simp only [syncPull, runGit]
          generalize hp : o.git _ (some repo.path) [go "pull", go "origin", repo.branch] = rp
          cases rp with
          | none =>
            refine ⟨_, ?_, SyncRun.createPull c, ?_⟩
            · simp
            · simp only [List.append_assoc, List.singleton_append, List.cons_append,
                List.nil_append] at hst hf hc hb hp
              simp [agrees, Event.agrees, hst, hf, hc, hb, hp]
          | some e =>
            refine ⟨_, ?_, SyncRun.createPullFailed c e, ?_⟩
            · simp
            · simp only [List.append_assoc, List.singleton_append, List.cons_append,
                List.nil_append] at hst hf hc hb hp
              simp [agrees, Event.agrees, hst, hf, hc, hb, hp]
  | false =>
    simp only [Bool.false_eq_true, if_false, syncClone, cloneArgs]
    generalize hm : o.mkdirAll _ (lib.dir repo.path) = rm
    cases rm with
    | some e =>
      refine ⟨_, ?_, SyncRun.mkdirFailed e, ?_⟩
      · simp
      · simp only [List.append_assoc, List.singleton_append, List.cons_append,
          List.nil_append] at hst hm
        simp [agrees, Event.agrees, hst, hm]
    | none =>
      simp only []
      generalize hc : o.git _ Option.none
        [go "clone", go "--depth", go "1", go "--branch", repo.branch, repo.url, repo.path] = rc
      cases rc with
      | some e =>
        refine ⟨_, ?_, SyncRun.cloneFailed e, ?_⟩
        · simp
        · simp only [List.append_assoc, List.singleton_append, List.cons_append,
            List.nil_append] at hst hm hc
          simp [agrees, Event.agrees, hst, hm, hc]
      | none =>
        refine ⟨_, ?_, SyncRun.cloned, ?_⟩
        · simp
        · simp only [List.append_assoc, List.singleton_append, List.cons_append,
            List.nil_append] at hst hm hc
          simp [agrees, Event.agrees, hst, hm, hc]

theorem processedOf_append (a b : List Event) :
    processedOf (a ++ b) = processedOf a ++ processedOf b := by
  induction a with
  | nil => rfl
  | cons e a ih =>
    cases e with
    | print m => cases m <;> simp [processedOf, ih]
    | stat _ _ => simp [processedOf, ih]
    | mkdirAll _ _ => simp [processedOf, ih]
    | git _ _ _ => simp [processedOf, ih]

theorem commandsOf_append (a b : List Event) :
    commandsOf (a ++ b) = commandsOf a ++ commandsOf b := by
  induction a with
  | nil => rfl
  | cons e a ih => cases e <;> simp [commandsOf, ih]

theorem SyncRun.processedOf_eq {lib : PathLib} {repo : Repo} {seg : List Event} {d : Bool}
    (h : SyncRun lib repo seg d) : processedOf seg = [repo] := by
  cases h <;> rfl

theorem processedOf_runEvents {lib : PathLib} {repo : Repo} {run : List Event × Bool}
    (h : SyncRun lib repo run.1 run.2) : processedOf (runEvents repo run) = [repo] := by
  unfold runEvents
  rw [processedOf_append, h.processedOf_eq]
  cases run.2 <;> rfl

/-- One iteration of the loop that passes the name filter, in terms of its run. -/
theorem syncRepo_runEvents (lib : PathLib) (o : Oracle) (repo : Repo) (tr : List Event) :
    ∃ run : List Event × Bool, SyncRun lib repo run.1 run.2 ∧ agrees o tr run.1 = true ∧
      syncRepo lib o repo tr = (tr ++ run.1, run.2) := by
  obtain ⟨seg, h1, h2, h3⟩ := syncRepo_run lib o repo tr
  exact ⟨(seg, (syncRepo lib o repo tr).2), h2, h3, h1⟩

theorem agrees_runEvents (o : Oracle) (repo : Repo) (tr : List Event)
    (run : List Event × Bool) (h : agrees o tr run.1 = true) :
    agrees o tr (runEvents repo run) = true := by
  unfold runEvents
  rw [agrees_append, h]
  cases run.2 <;> simp [agrees, Event.agrees]

/-- Without a name the loop runs the state machine once for every record, in order. -/
theorem updateLoop_all (lib : PathLib) (o : Oracle) (repos : List Repo) (tr : List Event) :
    ∃ runs : List (List Event × Bool),
      List.Forall₂ (fun repo run => SyncRun lib repo run.1 run.2) repos runs ∧
      updateLoop lib o (go "") repos tr = tr ++ tracesOf repos runs ∧
      agrees o tr (tracesOf repos runs) = true := by
  induction repos generalizing tr with
  | nil =>
    exact ⟨[], List.Forall₂.nil, by simp [updateLoop, tracesOf], by simp [tracesOf, agrees]⟩
  | cons repo rest ih =>
    obtain ⟨run, hrun, hag, heq⟩ := syncRepo_runEvents lib o repo tr
    obtain ⟨runs, hruns, hloop, hag2⟩ := ih (tr ++ runEvents repo run)
    refine ⟨run :: runs, List.Forall₂.cons hrun hruns, ?_, ?_⟩
    · obtain ⟨seg, d⟩ := run
      cases d with
      | false =>
        simp only [runEvents, Bool.false_eq_true, if_false, List.append_nil] at hloop
        simp [updateLoop, heq, hloop, tracesOf, runEvents]
      | true =>
        simp only [runEvents, if_true] at hloop
        simp only [List.append_assoc] at hloop
        simp [updateLoop, heq, hloop, tracesOf, runEvents]
    · simp only [tracesOf]
      rw [agrees_append, agrees_runEvents o repo tr run hag, hag2]
      rfl

/-- With a name, records of another name leave the trace as it is. -/
theorem updateLoop_skip (lib : PathLib) (o : Oracle) (name : GoString) (repos : List Repo)
    (tr : List Event) (hne : name ≠ go "") (h : name ∉ repos.map Repo.name) :
    updateLoop lib o name repos tr = tr := by
  induction repos with
  | nil => rfl
  | cons repo rest ih =>
    simp only [List.map_cons, List.mem_cons, not_or] at h
    have h1 : repo.name ≠ name := fun e => h.1 e.symm
    simp [updateLoop, hne, h1, ih h.2]

/-- With a name borne by exactly one record, the loop runs the state machine for that
record and for no other. -/
theorem updateLoop_one (lib : PathLib) (o : Oracle) (name : GoString)
    (pre post : List Repo) (repo : Repo) (tr : List Event) (hne : name ≠ go "")
    (hr : repo.name = name) (hpre : name ∉ pre.map Repo.name)
    (hpost : name ∉ post.map Repo.name) :
    ∃ run : List Event × Bool, SyncRun lib repo run.1 run.2 ∧ agrees o tr run.1 = true ∧
      updateLoop lib o name (pre ++ repo :: post) tr = tr ++ runEvents repo run := by
  induction pre with
  | nil =>
    obtain ⟨run, hrun, hag, heq⟩ := syncRepo_runEvents lib o repo tr
    refine ⟨run, hrun, hag, ?_⟩
    obtain ⟨seg, d⟩ := run
    cases d with
    | false =>
      simp [updateLoop, hne, hr, heq, runEvents, updateLoop_skip lib o name post _ hne hpost]
    | true => simp [updateLoop, hne, hr, heq, runEvents]
  | cons a pre ih =>
    simp only [List.map_cons, List.mem_cons, not_or] at hpre
    have h1 : a.name ≠ name := fun e => hpre.1 e.symm
    obtain ⟨run, hrun, hag, heq⟩ := ih hpre.2
    exact ⟨run, hrun, hag, by simp [updateLoop, hne, h1, heq]⟩

/-- A name borne by some record of a registry with pairwise distinct names splits it. -/
theorem split_at_name (name : GoString) (repos : List Repo) (repo : Repo)
    (hmem : repo ∈ repos) (hr : repo.name = name) (hnd : (repos.map Repo.name).Nodup) :
    ∃ pre post, repos = pre ++ repo :: post ∧ name ∉ pre.map Repo.name ∧
      name ∉ post.map Repo.name := by
  obtain ⟨pre, post, e⟩ := List.append_of_mem hmem
  refine ⟨pre, post, e, ?_, ?_⟩
  · rw [e, List.map_append, List.map_cons, List.nodup_append] at hnd
    intro hin
    exact hnd.2.2 hin (by simp [hr])
  · rw [e, List.map_append, List.map_cons, List.nodup_append] at hnd
    have := (List.nodup_cons.1 hnd.2.1).1
    rwa [hr] at this

/-- Whatever the name, the loop runs the state machine for a selection of the records, in
registry order, and does nothing else. -/
theorem updateLoop_runs (lib : PathLib) (o : Oracle) (name : GoString) (repos : List Repo)
    (tr : List Event) :
    ∃ (sel : List Repo) (runs : List (List Event × Bool)), sel.Sublist repos ∧
      List.Forall₂ (fun repo run => SyncRun lib repo run.1 run.2) sel runs ∧
      updateLoop lib o name repos tr = tr ++ tracesOf sel runs ∧
      agrees o tr (tracesOf sel runs) = true := by
  induction repos generalizing tr with
  | nil =>
    exact ⟨[], [], List.Sublist.slnil, List.Forall₂.nil, by simp [updateLoop, tracesOf],
      by simp [tracesOf, agrees]⟩
  | cons repo rest ih =>
    by_cases hskip : name ≠ go "" ∧ repo.name ≠ name
    · obtain ⟨sel, runs, hsub, hruns, hloop, hag⟩ := ih tr
      refine ⟨sel, runs, hsub.cons repo, hruns, ?_, hag⟩
      rw [← hloop]
      simp only [updateLoop]
      rw [if_pos hskip]
    · obtain ⟨run, hrun, hag, heq⟩ := syncRepo_runEvents lib o repo tr
      by_cases hbreak : run.2 = true ∧ name ≠ go ""
      · refine ⟨[repo], [run], by simp, List.Forall₂.cons hrun List.Forall₂.nil, ?_, ?_⟩
        · obtain ⟨seg, d⟩ := run
          obtain ⟨hd, hn⟩ := hbreak
          simp only at hd
          subst hd
          simp only [updateLoop]
          rw [if_neg hskip]
          simp [heq, hn, tracesOf, runEvents]
        · simp only [tracesOf, List.append_nil]
          exact agrees_runEvents o repo tr run hag
      · obtain ⟨sel, runs, hsub, hruns, hloop, hag2⟩ := ih (tr ++ runEvents repo run)
        refine ⟨repo :: sel, run :: runs, hsub.cons₂ repo, List.Forall₂.cons hrun hruns,
          ?_, ?_⟩
        · obtain ⟨seg, d⟩ := run
          simp only [updateLoop]
          rw [if_neg hskip]
          cases d with
          | false =>
            simp only [runEvents, Bool.false_eq_true, if_false, List.append_nil] at hloop
            simp [heq, hloop, tracesOf, runEvents]
          | true =>
            have hn : name = go "" := by
              by_contra hc
              exact hbreak ⟨rfl, hc⟩
            simp only [runEvents, if_true, List.append_assoc] at hloop
            simp [heq, hloop, tracesOf, runEvents, hn]
            simpa [hn] using hloop
        · simp only [tracesOf]
          rw [agrees_append, agrees_runEvents o repo tr run hag, hag2]
          rfl

/-! ## Claims on the sync engine -/

/-- C9: fault isolation of `update` without a name.  Once the registry has loaded, and
whatever the world answers to each `os.Stat`, `os.MkdirAll` and `git` sub-process, the
command returns success (exit code 0), its trace records the answers of the world, and
the trace is one complete run of the state machine per record, for every record and in
registry order (when the registry is not empty): the records whose processing started are
exactly the records of the registry, each once, in order. -/
theorem update_all_fault_isolated {Bytes : Type} (lib : PathLib) (j : Json Bytes)
    (f : Faults Bytes) (o : Oracle) (file : Option Bytes) (cfg : Config)
    (hl : loadConfig j f file = .ok cfg) :
    (cmdUpdate lib j f o [] file).exit = .ok ∧
      (cmdUpdate lib j f o [] file).exit.code = 0 ∧
      processedOf (cmdUpdate lib j f o [] file).trace = cfg.repos ∧
      agrees o [] (cmdUpdate lib j f o [] file).trace = true ∧
      (cfg.repos ≠ [] → ∃ runs : List (List Event × Bool),
        List.Forall₂ (fun repo run => SyncRun lib repo run.1 run.2) cfg.repos runs ∧
        (cmdUpdate lib j f o [] file).trace = tracesOf cfg.repos runs) := by
  obtain ⟨runs, hruns, hloop, hag⟩ := updateLoop_all lib o cfg.repos []
  have hproc : ∀ (repos : List Repo) (runs : List (List Event × Bool)),
      List.Forall₂ (fun repo run => SyncRun lib repo run.1 run.2) repos runs →
      processedOf (tracesOf repos runs) = repos := by
    intro repos runs h
    induction h with
    | nil => rfl
    | cons h1 _ ih =>
      simp only [tracesOf]
      rw [processedOf_append, processedOf_runEvents h1, ih]
      rfl
  by_cases hemp : cfg.repos = []
  · simp [cmdUpdate, hl, hemp, Exit.code, processedOf, agrees, Event.agrees]
  · have hlen : ¬ cfg.repos.length = 0 := fun h => hemp (List.length_eq_zero.1 h)
    simp only [List.nil_append] at hloop
    simp only [cmdUpdate, hl, hlen, if_false, List.length_nil, gt_iff_lt, lt_self_iff_false,
      hloop, Exit.code, true_and]
    exact ⟨hproc cfg.repos runs hruns, hag, fun _ => ⟨runs, hruns, rfl⟩⟩

/-- Instance of C9: `update` in a world where every step fails. -/
theorem update_all_fault_isolated_witness :
    (cmdUpdate slashLib goJson Faults.none hostileWorld [] fileAB).exit = .ok ∧
      (cmdUpdate slashLib goJson Faults.none hostileWorld [] fileAB).exit.code
        = 0 ∧
      processedOf (cmdUpdate slashLib goJson Faults.none hostileWorld []
        fileAB).trace = registryAB.repos ∧
      agrees hostileWorld []
        (cmdUpdate slashLib goJson Faults.none hostileWorld [] fileAB).trace
        = true ∧
      (registryAB.repos ≠ [] → ∃ runs : List (List Event × Bool),
        List.Forall₂ (fun repo run => SyncRun slashLib repo run.1 run.2)
          registryAB.repos runs ∧
        (cmdUpdate slashLib goJson Faults.none hostileWorld [] fileAB).trace
          = tracesOf registryAB.repos runs) :=
  update_all_fault_isolated slashLib goJson Faults.none hostileWorld fileAB
    registryAB rfl

/-- C8: selection policy of `update` with a name.  For a non-empty registry with pairwise
distinct names and a non-empty name, whatever the world answers: the command returns
success; if a record bears the name, wherever it stands, the trace is exactly the run of
the state machine for that record (followed by its success line if it reached Done), so
that record and no other is processed, and its fetch or its clone is attempted unless the
creation of the parent directory failed; if no record bears the name, the trace is empty:
no record is processed and no external command is issued. -/
theorem update_named_selects_one {Bytes : Type} (lib : PathLib) (j : Json Bytes)
    (f : Faults Bytes) (o : Oracle) (name : GoString) (extra : List GoString)
    (file : Option Bytes) (cfg : Config) (hl : loadConfig j f file = .ok cfg)
    (hne : cfg.repos ≠ []) (hnd : cfg.names.Nodup) (hname : name ≠ go "") :
    (cmdUpdate lib j f o (name :: extra) file).exit = .ok ∧
      (∀ repo ∈ cfg.repos, repo.name = name →
        ∃ run : List Event × Bool, SyncRun lib repo run.1 run.2 ∧
          agrees o [] run.1 = true ∧
          (cmdUpdate lib j f o (name :: extra) file).trace = runEvents repo run ∧
          processedOf (cmdUpdate lib j f o (name :: extra) file).trace = [repo] ∧
          ((some repo.path, [go "fetch", go "origin"]) ∈
              commandsOf (cmdUpdate lib j f o (name :: extra) file).trace ∨
            (Option.none, cloneArgs repo) ∈
              commandsOf (cmdUpdate lib j f o (name :: extra) file).trace ∨
            ∃ e, Event.mkdirAll (lib.dir repo.path) (some e) ∈
              (cmdUpdate lib j f o (name :: extra) file).trace)) ∧
      (name ∉ cfg.names → (cmdUpdate lib j f o (name :: extra) file).trace = []) := by
  have hlen : ¬ cfg.repos.length = 0 := fun h => hne (List.length_eq_zero.1 h)
  have htrace : (cmdUpdate lib j f o (name :: extra) file).trace =
      updateLoop lib o name cfg.repos [] := by
    simp [cmdUpdate, hl, hlen, argsGet]
  refine ⟨by simp [cmdUpdate, hl, hlen], ?_, ?_⟩
  · intro repo hmem hr
    obtain ⟨pre, post, e, hpre, hpost⟩ := split_at_name name cfg.repos repo hmem hr hnd
    obtain ⟨run, hrun, hag, hloop⟩ := updateLoop_one lib o name pre post repo [] hname hr
      hpre hpost
    rw [← e, List.nil_append] at hloop
    rw [htrace, hloop]
    refine ⟨run, hrun, hag, rfl, processedOf_runEvents hrun, ?_⟩
    obtain ⟨seg, d⟩ := run
    simp only at hrun
    unfold runEvents
    simp only [commandsOf_append, List.mem_append]
    cases hrun <;> simp [commandsOf, cloneArgs]
  · intro hnot
    rw [htrace]
    exact updateLoop_skip lib o name cfg.repos [] hname hnot

/-- Instance of C8: `update b`, the second record, while fetching fails for "a". -/
theorem update_named_selects_one_witness :
    (cmdUpdate slashLib goJson Faults.none fetchFailsForA (go "b" :: []) fileAB).exit
        = .ok ∧
      (∀ repo ∈ registryAB.repos, repo.name = go "b" →
        ∃ run : List Event × Bool, SyncRun slashLib repo run.1 run.2 ∧
          agrees fetchFailsForA [] run.1 = true ∧
          (cmdUpdate slashLib goJson Faults.none fetchFailsForA (go "b" :: [])
            fileAB).trace = runEvents repo run ∧
          processedOf (cmdUpdate slashLib goJson Faults.none fetchFailsForA (go "b" :: [])
            fileAB).trace = [repo] ∧
          ((some repo.path, [go "fetch", go "origin"]) ∈
              commandsOf (cmdUpdate slashLib goJson Faults.none fetchFailsForA (go "b" :: [])
                fileAB).trace ∨
            (Option.none, cloneArgs repo) ∈
              commandsOf (cmdUpdate slashLib goJson Faults.none fetchFailsForA (go "b" :: [])
                fileAB).trace ∨
            ∃ e, Event.mkdirAll (slashLib.dir repo.path) (some e) ∈
              (cmdUpdate slashLib goJson Faults.none fetchFailsForA (go "b" :: [])
                fileAB).trace)) ∧
      (go "b" ∉ registryAB.names →
        (cmdUpdate slashLib goJson Faults.none fetchFailsForA (go "b" :: [])
          fileAB).trace = []) :=
  update_named_selects_one slashLib goJson Faults.none fetchFailsForA (go "b") []
    fileAB registryAB rfl (by decide) (by decide) (by decide)

/-- C10: per-record state machine of `cmdUpdate`.  Whatever the world answers, one loop
iteration extends the trace by exactly one complete run of the state machine `SyncRun`,
recording the answers of the world: with the metadata directory present, `fetch origin`,
then `checkout <branch>`, then `checkout -b <branch> origin/<branch>` exactly when the
plain checkout failed, then `pull origin <branch>`, all in the record's path, the run
ending without success right after a failed fetch, a failed fallback checkout or a failed
pull, and never a clone; with the metadata directory absent, the creation of the parent
directory and then, if that succeeded, the one clone command, and no fetch, checkout or
pull.  The whole trace of `update` consists of such runs only. -/
theorem sync_state_machine {Bytes : Type} (lib : PathLib) (o : Oracle) :
    (∀ (repo : Repo) (tr : List Event),
      ∃ seg, syncRepo lib o repo tr = (tr ++ seg, (syncRepo lib o repo tr).2) ∧
        SyncRun lib repo seg (syncRepo lib o repo tr).2 ∧ agrees o tr seg = true) ∧
      (∀ (repo : Repo) (seg : List Event) (d : Bool), SyncRun lib repo seg d →
        (Event.stat (lib.join repo.path (go ".git")) true ∈ seg →
          commandsOf seg = [(some repo.path, [go "fetch", go "origin"])] ∨
          commandsOf seg = [(some repo.path, [go "fetch", go "origin"]),
            (some repo.path, [go "checkout", repo.branch]),
            (some repo.path, [go "pull", go "origin", repo.branch])] ∨
          commandsOf seg = [(some repo.path, [go "fetch", go "origin"]),
            (some repo.path, [go "checkout", repo.branch]),
            (some repo.path,
              [go "checkout", go "-b", repo.branch, go "origin/" ++ repo.branch])] ∨
          commandsOf seg = [(some repo.path, [go "fetch", go "origin"]),
            (some repo.path, [go "checkout", repo.branch]),
            (some repo.path, [go "checkout", go "-b", repo.branch, go "origin/" ++ repo.branch]),
            (some repo.path, [go "pull", go "origin", repo.branch])]) ∧
        (Event.stat (lib.join repo.path (go ".git")) false ∈ seg →
          commandsOf seg = [] ∨
          commandsOf seg = [(Option.none,
            [go "clone", go "--depth", go "1", go "--branch", repo.branch, repo.url,
              repo.path])])) ∧
      (∀ (j : Json Bytes) (f : Faults Bytes) (args : List GoString) (file : Option Bytes),
        (cmdUpdate lib j f o args file).trace = [.print .noRepos] ∨
        ∃ (sel : List Repo) (runs : List (List Event × Bool)),
          List.Forall₂ (fun repo run => SyncRun lib repo run.1 run.2) sel runs ∧
          (cmdUpdate lib j f o args file).trace = tracesOf sel runs) := by
  refine ⟨fun repo tr => syncRepo_run lib o repo tr, ?_, ?_⟩
  · intro repo seg d h
    cases h <;> simp [commandsOf]
  · intro j f args file
    cases hl : loadConfig j f file with
    | error e =>
      exact Or.inr ⟨[], [], List.Forall₂.nil, by simp [cmdUpdate, hl, tracesOf]⟩
    | ok cfg =>
      by_cases hlen : cfg.repos.length = 0
      · exact Or.inl (by simp [cmdUpdate, hl, hlen])
      · obtain ⟨sel, runs, _, hruns, hloop, _⟩ := updateLoop_runs lib o
          (if args.length > 0 then argsGet args 0 else go "") cfg.repos []
        refine Or.inr ⟨sel, runs, hruns, ?_⟩
        simp only [List.nil_append] at hloop
        simp only [cmdUpdate, hl, hlen, if_false, hloop]

/-! ## Worked examples -/

/-- The scenario of the spec: a registry with records "a" and "b"; `remove a` leaves
exactly the record "b". -/
theorem example_remove_a_leaves_b :
    (cmdRemove rootGlobals goJson Faults.none [go "a"] fileAB).file
      = some (.registry ⟨[⟨go "b", go "https://x/b.git", go "main", go "/p/b"⟩]⟩) := rfl

/-- A failed fetch for "a" does not keep "b" from being refreshed. -/
theorem example_update_all_trace :
    (cmdUpdate slashLib goJson Faults.none fetchFailsForA [] fileAB).trace =
      [.print (.processing ⟨go "a", go "https://x/a.git", go "main", go "/p/a"⟩),
        .stat (go "/p/a/.git") true,
        .print .updating,
        .git (some (go "/p/a")) [go "fetch", go "origin"] (some (go "exit status 128")),
        .print (.errFetch (go "exit status 128")),
        .print (.processing ⟨go "b", go "https://x/b.git", go "main", go "/p/b"⟩),
        .stat (go "/p/b/.git") true,
        .print .updating,
        .git (some (go "/p/b")) [go "fetch", go "origin"] Option.none,
        .git (some (go "/p/b")) [go "checkout", go "main"] Option.none,
        .git (some (go "/p/b")) [go "pull", go "origin", go "main"] Option.none,
        .print (.done (go "b"))] := by decide

/-- With a name, the second record is reached and is the only one processed; when the
parent directory cannot be created no clone is started. -/
theorem example_update_named_trace :
    (cmdUpdate slashLib goJson Faults.none hostileWorld [go "b"] fileAB).trace =
      [.print (.processing ⟨go "b", go "https://x/b.git", go "main", go "/p/b"⟩),
        .stat (go "/p/b/.git") false,
        .print .cloning,
        .mkdirAll (go "/parent") (some (go "permission denied")),
        .print (.errMkdir (go "permission denied"))] := by decide

end Depot
